import Mathlib

/-!
# The `initialize` command of etcd-backup-restore

A shallow embedding of `cmd/initializer.go` (`NewInitializeCommand`) together
with the Go standard-library functions `path.Join` and `path.Clean` that
compute the snapshot-store prefix.

The command reads package-level flag variables, parses the two URL flags,
builds the `RestoreOptions` and the optional snapshot-store `Config`, hands
both to `initializer.NewInitializer` and calls `Initialize` on the result.
Every `logger.Fatalf` logs its message and ends the process with exit code 1.

The lexically cleaned form of a path is also stated on path elements, by the
rules of the `path.Clean` documentation, and the embedding of `Clean` is proved
to compute it.
-/

namespace EtcdBackupRestore

/-! ## Go `path` package

`path.Join` and `path.Clean` of the Go standard library. A Go string is a
sequence of bytes; here a path is a list of characters. `Clean` compares
bytes with `/` and `.` only, which are single bytes that never occur inside a
multi-byte UTF-8 character, so the two readings agree on every text.

The output buffer of `Clean` is a `lazybuf`, which shares the bytes of the
input until the output differs from it. That sharing saves an allocation and
does not change what `index` and `string` return, so the buffer is kept here
as the list of bytes appended so far. -/

namespace path

/-- The inner copy loop of `Clean`,
`for ; r < n && path[r] != '/'; r++ { out.append(path[r]) }`:
the first argument is `path[r:]`, the result is the buffer and the unread
remainder of the path. -/
def copyElement : List Char → List Char → List Char × List Char
  | [], out => (out, [])
  | c :: tl, out => if c ≠ '/' then copyElement tl (out ++ [c]) else (out, c :: tl)

/-- The backtracking loop of the `..` case of `Clean`,
`for out.w > dotdot && out.index(out.w) != '/' { out.w-- }`, started at the
write index given as last argument; the result is the final write index.
`out` holds the bytes appended so far, which `index` reads. -/
def backtrack (out : List Char) (dotdot : Nat) : Nat → Nat
  | 0 => 0
  | w + 1 => if dotdot < w + 1 ∧ out.getD (w + 1) '/' ≠ '/' then backtrack out dotdot w else w + 1

/-- The main loop `for r < n { switch ... }` of `Clean`. The path is read
through `rest = path[r:]`; the output buffer (`lazybuf`) is represented by the
bytes it holds, `out`, whose length is the write index `out.w`. The first
numeric argument bounds the number of iterations; every iteration consumes at
least one byte, so the length of `rest` is always enough. -/
def cleanLoop (rooted : Bool) : Nat → List Char → List Char → Nat → List Char
  | 0, _, out, _ => out
  | fuel + 1, rest, out, dotdot =>
    match rest with
    | [] => out
    | c :: tl =>
      if c = '/' then
        -- empty path element
        cleanLoop rooted fuel tl out dotdot
      else if c = '.' ∧ (tl = [] ∨ tl.head? = some '/') then
        -- . element
        cleanLoop rooted fuel tl out dotdot
      else if c = '.' ∧ tl.head? = some '.' ∧ (tl.tail = [] ∨ tl.tail.head? = some '/') then
        -- .. element: remove to last /
        if dotdot < out.length then
          -- can backtrack
          cleanLoop rooted fuel tl.tail
            (out.take (backtrack out dotdot (out.length - 1))) dotdot
        else if rooted = false then
          -- cannot backtrack, but not rooted, so append .. element
          let out1 := if 0 < out.length then out ++ ['/'] else out
          let out2 := out1 ++ ['.', '.']
          cleanLoop rooted fuel tl.tail out2 out2.length
        else
          cleanLoop rooted fuel tl.tail out dotdot
      else
        -- real path element: add slash if needed, then copy the element
        let out1 :=
          if (rooted = true ∧ out.length ≠ 1) ∨ (rooted = false ∧ out.length ≠ 0)
          then out ++ ['/'] else out
        let r := copyElement (c :: tl) out1
        cleanLoop rooted fuel r.2 r.1 dotdot

/-- Go `path.Clean` on the bytes of a path. -/
def cleanBytes (p : List Char) : List Char :=
  if p = [] then ['.']
  else
    let rooted : Bool := p.head? = some '/'
    let out :=
      if rooted then cleanLoop rooted p.length (p.drop 1) ['/'] 1
      else cleanLoop rooted p.length p [] 0
    -- Turn empty string into "."
    if out.length = 0 then ['.'] else out

/-- Go `strings.Join(elems, "/")` on byte lists. -/
def joinSlash : List (List Char) → List Char
  | [] => []
  | [e] => e
  | e :: es => e ++ '/' :: joinSlash es

/-- Go `path.Join` on byte lists: the elements from the first non-empty one
on are joined with `/` and cleaned; when all are empty the result is empty. -/
def joinBytes : List (List Char) → List Char
  | [] => []
  | e :: es => if e ≠ [] then cleanBytes (joinSlash (e :: es)) else joinBytes es

/-- Go `path.Clean`. -/
def Clean (p : String) : String := String.mk (cleanBytes p.data)

/-- Go `path.Join`. -/
def Join (elem : List String) : String := String.mk (joinBytes (elem.map String.data))

/-- The result of `Clean` has the element `v` as its last path element. -/
def EndsWithElement (v res : List Char) : Prop := res = v ∨ ('/' :: v) <:+ res

/-- Loop invariant of `Clean`: backtracking stops at `dotdot`, which is inside
the buffer, and a rooted path keeps its leading slash. -/
def BufferOk (rooted : Bool) (out : List Char) (dotdot : Nat) : Prop :=
  dotdot ≤ out.length ∧ (rooted = true → 1 ≤ dotdot ∧ out.head? = some '/')

/-! ### What "lexically cleaned" means

The documentation of `path.Clean` describes the result by rules on path
elements: (1) replace multiple slashes with a single slash, (2) eliminate each
`.` element, (3) eliminate each inner `..` element along with the non-`..`
element that precedes it, (4) eliminate `..` elements that begin a rooted
path; the result ends in a slash only if it is the root, and an empty result
becomes `.`. The definitions below state this on the list of path elements,
without reference to the byte loop of `Clean`. -/

/-- The path elements: the pieces of a path between its slashes, as
`strings.Split(p, "/")` returns them. -/
def splitSlash : List Char → List (List Char)
  | [] => [[]]
  | c :: tl =>
    if c = '/' then [] :: splitSlash tl
    else
      match splitSlash tl with
      | e :: es => (c :: e) :: es
      | [] => [[c]]

/-- The rules of the documentation applied to one more path element `e`, where
`stack` holds the elements kept so far, the last one first. An empty element
(between two slashes) and `.` are dropped; `..` removes the element before it
unless that is itself `..`, is dropped at the root of a rooted path, and is
kept otherwise; any other element is kept. -/
def applyElement (rooted : Bool) (stack : List (List Char)) (e : List Char) :
    List (List Char) :=
  if e = [] ∨ e = ['.'] then stack
  else if e = ['.', '.'] then
    match stack with
    | [] => if rooted then [] else [e]
    | top :: below => if top = ['.', '.'] then e :: top :: below else below
  else e :: stack

/-- The path made of the kept elements, joined by single slashes, after the
leading slash of a rooted path. -/
def render (rooted : Bool) (stack : List (List Char)) : List Char :=
  (if rooted then ['/'] else []) ++ joinSlash stack.reverse

/-- The lexically cleaned form of a path, by the rules of the documentation. -/
def lexicalClean (p : List Char) : List Char :=
  let rooted : Bool := p.head? = some '/'
  let s := render rooted ((splitSlash p).foldl (applyElement rooted) [])
  if s = [] then ['.'] else s

/-- The lexically cleaned form of a path, on strings. -/
def LexicallyCleaned (p : String) : String := String.mk (lexicalClean p.data)

/-- The buffer of `Clean` holds the kept elements: `real` are the kept names,
the last one first, below them are `k` leading `..` elements, `out` is their
rendering and `dotdot` is the length of the part that `..` may not remove. -/
def Rep (rooted : Bool) (k : Nat) (real : List (List Char)) (out : List Char)
    (dotdot : Nat) : Prop :=
  (∀ e ∈ real, e ≠ [] ∧ '/' ∉ e ∧ e ≠ ['.', '.']) ∧
  (rooted = true → k = 0) ∧
  out = render rooted (real ++ List.replicate k ['.', '.']) ∧
  dotdot = (render rooted (List.replicate k ['.', '.'])).length

end path

/-! ## Data handed to the initializer -/

/-- A parsed URL (`net/url.URL`), kept abstract: only the parsers of the etcd
`types` package build values of it. -/
structure URL where
  Scheme : String
  Host : String
  deriving DecidableEq, Repr

/-- The etcd type `types.URLs`, a slice of URLs. -/
abbrev URLs := List URL

/-- The etcd type `types.URLsMap`, a Go map from member name to URLs, kept as its
list of (name, URLs) entries with pairwise different names. -/
abbrev URLsMap := List (String × URLs)

/-- The struct `restorer.RestoreOptions`, the fields that the command sets. -/
structure RestoreOptions where
  RestoreDataDir : String
  Name : String
  ClusterURLs : URLsMap
  PeerURLs : URLs
  ClusterToken : String
  SkipHashCheck : Bool
  MaxFetchers : Int
  deriving DecidableEq, Repr

/-- The struct `snapstore.Config`, the fields that the command sets. -/
structure Config where
  Provider : String
  Container : String
  Prefix : String
  MaxParallelChunkUploads : Int
  TempDir : String
  deriving DecidableEq, Repr

/-- The package-level flag variables that the command reads. They are bound to
command-line flags by `initializeEtcdFlags` and `initializeSnapstoreFlags`. -/
structure Flags where
  restoreCluster : String
  restorePeerURLs : List String
  restoreDataDir : String
  restoreName : String
  restoreClusterToken : String
  skipHashCheck : Bool
  restoreMaxFetchers : Int
  storageProvider : String
  storageContainer : String
  storagePrefix : String
  maxParallelChunkUploads : Int
  snapstoreTempDir : String
  deriving DecidableEq, Repr

/-- What the command calls outside its own file. Go errors are kept as the text
of their `Error()` method, which is all that `%v` prints.

* `NewURLsMap`, `NewURLs`: the parsers of `github.com/coreos/etcd/pkg/types`;
* `Initialize`: what `initializer.NewInitializer(options, snapstoreConfig,
  logger).Initialize()` returns, `none` for a nil error. It is a function of
  the two values handed to `NewInitializer` (the logger is a fresh
  `logrus.New()` in every run);
* `backupFormatVersion`: the package constant of that name. -/
structure Env where
  NewURLsMap : String → Except String URLsMap
  NewURLs : List String → Except String URLs
  Initialize : RestoreOptions → Option Config → Option String
  backupFormatVersion : String

/-- The stop channel `stopCh <-chan struct{}`: `none` when it is never
signalled, `some t` when it is signalled at time `t`. -/
abbrev StopCh := Option Nat

/-- The observable steps of one run of the command, in order. -/
inductive Event where
  /-- The call `initializer.NewInitializer(options, snapstoreConfig, logger)`. -/
  | newInitializer (options : RestoreOptions) (snapstoreConfig : Option Config)
  /-- The call `etcdInitializer.Initialize()` with the error it returned. -/
  | initializeCall (err : Option String)
  /-- The call `logger.Fatalf` with its formatted message. -/
  | fatal (msg : String)
  deriving DecidableEq, Repr

/-- How a run ends: the `Run` function returns, or the process exits. -/
inductive Outcome where
  | returned
  | exited (code : Nat)
  deriving DecidableEq, Repr

/-- One run of the command: its steps and how it ended. -/
structure RunResult where
  trace : List Event
  outcome : Outcome
  deriving DecidableEq, Repr

/-- The logrus call `logger.Fatalf(format, err)` after the steps `before`: the
message is logged and the process exits with code 1, so nothing follows. -/
def Fatalf (before : List Event) (msg : String) : RunResult :=
  { trace := before ++ [Event.fatal msg], outcome := Outcome.exited 1 }

/-- The `Run` closure of the `initialize` command. -/
def Run (env : Env) (f : Flags) : RunResult :=
  match env.NewURLsMap f.restoreCluster with
  | .error err => Fatalf [] ("failed creating url map for restore cluster: " ++ err)
  | .ok clusterUrlsMap =>
    match env.NewURLs f.restorePeerURLs with
    | .error err => Fatalf [] ("failed parsing peers urls for restore cluster: " ++ err)
    | .ok peerUrls =>
      let options : RestoreOptions :=
        { RestoreDataDir := f.restoreDataDir
          Name := f.restoreName
          ClusterURLs := clusterUrlsMap
          PeerURLs := peerUrls
          ClusterToken := f.restoreClusterToken
          SkipHashCheck := f.skipHashCheck
          MaxFetchers := f.restoreMaxFetchers }
      let snapstoreConfig : Option Config :=
        if f.storageProvider ≠ "" then
          some
            { Provider := f.storageProvider
              Container := f.storageContainer
              Prefix := path.Join [f.storagePrefix, env.backupFormatVersion]
              MaxParallelChunkUploads := f.maxParallelChunkUploads
              TempDir := f.snapstoreTempDir }
        else none
      let calls := [Event.newInitializer options snapstoreConfig,
        Event.initializeCall (env.Initialize options snapstoreConfig)]
      match env.Initialize options snapstoreConfig with
      | some err => Fatalf calls ("initializer failed. " ++ err)
      | none => { trace := calls, outcome := Outcome.returned }

/-- The cobra command built by `NewInitializeCommand`. -/
structure Command where
  Use : String
  Short : String
  Long : String
  Run : Env → Flags → RunResult

/-- The constructor `NewInitializeCommand(stopCh)`. -/
def NewInitializeCommand (_stopCh : StopCh) : Command :=
  { Use := "initialize"
    Short := "initialize an etcd instance."
    Long := "Initializes an etcd instance. Data directory is checked for corruption and restored in case of corruption."
    Run := Run }

/-! ## Reading a run -/

/-- The arguments of the first `NewInitializer` call in a trace, if any. -/
def initializerArgs : List Event → Option (RestoreOptions × Option Config)
  | [] => none
  | Event.newInitializer o c :: _ => some (o, c)
  | _ :: rest => initializerArgs rest

/-- The number of `Initialize` calls in a trace. -/
def initializeCalls : List Event → Nat
  | [] => 0
  | Event.initializeCall _ :: rest => initializeCalls rest + 1
  | _ :: rest => initializeCalls rest

/-- The number of `NewInitializer` calls in a trace. -/
def newInitializerCalls : List Event → Nat
  | [] => 0
  | Event.newInitializer _ _ :: rest => newInitializerCalls rest + 1
  | _ :: rest => newInitializerCalls rest

/-- The messages of the `Fatalf` calls in a trace. -/
def fatalMessages : List Event → List String
  | [] => []
  | Event.fatal msg :: rest => msg :: fatalMessages rest
  | _ :: rest => fatalMessages rest

/-! ## Concrete instances -/

/-- An environment for concrete runs. On the flag values listed here its parsers
return what the etcd parsers return: the two well-formed cluster flags, the
empty cluster flag (an empty map), the cluster flag `bogus` (its URL part is
empty, so the scheme check fails on the empty text), the one well-formed
peer-URL list and the empty peer-URL list. Every other value is outside this
table and gets a placeholder error. `Initialize` fails exactly when the data
directory is `/bad` (standing for a restore that fails). -/
def sampleEnv : Env :=
  { NewURLsMap := fun s =>
      if s = "default=http://localhost:2380" then
        .ok [("default", [{ Scheme := "http", Host := "localhost:2380" }])]
      else if s = "etcd-0=http://10.0.0.1:2380,etcd-1=http://10.0.0.2:2380" then
        .ok [("etcd-0", [{ Scheme := "http", Host := "10.0.0.1:2380" }]),
             ("etcd-1", [{ Scheme := "http", Host := "10.0.0.2:2380" }])]
      else if s = "" then .ok []
      else if s = "bogus" then .error "URL scheme must be http, https, unix, or unixs: "
      else .error "value outside the table"
    NewURLs := fun ss =>
      if ss = ["http://localhost:2380"] then
        .ok [{ Scheme := "http", Host := "localhost:2380" }]
      else if ss = [] then .error "no valid URLs given"
      else .error "value outside the table"
    Initialize := fun o _ => if o.RestoreDataDir = "/bad" then some "restore failed" else none
    backupFormatVersion := "v1" }

/-- The environment `sampleEnv` with an empty backup format version. -/
def emptyVersionEnv : Env := { sampleEnv with backupFormatVersion := "" }

/-- The environment `sampleEnv` with a backup format version that starts with a
slash. -/
def rootedVersionEnv : Env := { sampleEnv with backupFormatVersion := "/v1" }

/-- Flag values of an ordinary run with a snapshot store. -/
def sampleFlags : Flags :=
  { restoreCluster := "default=http://localhost:2380"
    restorePeerURLs := ["http://localhost:2380"]
    restoreDataDir := "/var/etcd/data"
    restoreName := "default"
    restoreClusterToken := "etcd-cluster"
    skipHashCheck := false
    restoreMaxFetchers := 6
    storageProvider := "S3"
    storageContainer := "backups"
    storagePrefix := "etcd-main/"
    maxParallelChunkUploads := 5
    snapstoreTempDir := "/tmp" }

/-- Flag values naming two cluster members. -/
def twoMemberFlags : Flags :=
  { sampleFlags with
    restoreCluster := "etcd-0=http://10.0.0.1:2380,etcd-1=http://10.0.0.2:2380"
    restoreName := "etcd-0" }

/-- Flag values whose cluster and peer URL flags are both malformed. -/
def malformedFlags : Flags :=
  { sampleFlags with restoreCluster := "bogus", restorePeerURLs := [] }

/-- The options built from `sampleFlags`. -/
def sampleOptions : RestoreOptions :=
  { RestoreDataDir := "/var/etcd/data"
    Name := "default"
    ClusterURLs := [("default", [{ Scheme := "http", Host := "localhost:2380" }])]
    PeerURLs := [{ Scheme := "http", Host := "localhost:2380" }]
    ClusterToken := "etcd-cluster"
    SkipHashCheck := false
    MaxFetchers := 6 }

/-- The snapshot-store configuration built from `sampleFlags`. -/
def sampleConfig : Config :=
  { Provider := "S3"
    Container := "backups"
    Prefix := "etcd-main/v1"
    MaxParallelChunkUploads := 5
    TempDir := "/tmp" }

/-! ## The model of `path` on the test tables of the Go package -/

/-- The table `cleantests` of Go's `path_test.go`: inputs and expected results of `Clean`. -/
def cleantests : List (String × String) :=
  [("", "."),
   ("abc", "abc"),
   ("abc/def", "abc/def"),
   ("a/b/c", "a/b/c"),
   (".", "."),
   ("..", ".."),
   ("../..", "../.."),
   ("../../abc", "../../abc"),
   ("/abc", "/abc"),
   ("/", "/"),
   ("abc/", "abc"),
   ("abc/def/", "abc/def"),
   ("a/b/c/", "a/b/c"),
   ("./", "."),
   ("../", ".."),
   ("../../", "../.."),
   ("/abc/", "/abc"),
   ("abc//def//ghi", "abc/def/ghi"),
   ("//abc", "/abc"),
   ("///abc", "/abc"),
   ("//abc//", "/abc"),
   ("abc//", "abc"),
   ("abc/./def", "abc/def"),
   ("/./abc/def", "/abc/def"),
   ("abc/.", "abc"),
   ("abc/def/ghi/../jkl", "abc/def/jkl"),
   ("abc/def/../ghi/../jkl", "abc/jkl"),
   ("abc/def/..", "abc"),
   ("abc/def/../..", "."),
   ("/abc/def/../..", "/"),
   ("abc/def/../../..", ".."),
   ("/abc/def/../../..", "/"),
   ("abc/def/../../../ghi/jkl/../../../mno", "../../mno"),
   ("abc/./../def", "def"),
   ("abc//./../def", "def"),
   ("abc/../../././../def", "../../def")]

/-- The table `jointests` of Go's `path_test.go`: inputs and expected results of `Join`. -/
def jointests : List (List String × String) :=
  [([], ""),
   ([""], ""),
   (["a"], "a"),
   (["a", "b"], "a/b"),
   (["a", ""], "a"),
   (["", "b"], "b"),
   (["/", "a"], "/a"),
   (["/", ""], "/"),
   (["a/", "b"], "a/b"),
   (["a/", ""], "a"),
   (["", ""], "")]

/-- The cluster-URL mapping has exactly one member entry, named `name`. -/
def SingleMember (name : String) (m : URLsMap) : Prop := ∃ us, m = [(name, us)]

/-- The text `e` occurs in the message `msg`. -/
def Includes (msg e : String) : Prop := e.data <:+: msg.data

/-- The options that `Run` builds once both parses have succeeded. -/
def builtOptions (f : Flags) (m : URLsMap) (us : URLs) : RestoreOptions :=
  { RestoreDataDir := f.restoreDataDir
    Name := f.restoreName
    ClusterURLs := m
    PeerURLs := us
    ClusterToken := f.restoreClusterToken
    SkipHashCheck := f.skipHashCheck
    MaxFetchers := f.restoreMaxFetchers }

/-- The snapshot-store configuration that `Run` builds. -/
def builtConfig (env : Env) (f : Flags) : Option Config :=
  if f.storageProvider ≠ "" then
    some
      { Provider := f.storageProvider
        Container := f.storageContainer
        Prefix := path.Join [f.storagePrefix, env.backupFormatVersion]
        MaxParallelChunkUploads := f.maxParallelChunkUploads
        TempDir := f.snapstoreTempDir }
  else none

/-! ## The run of the command -/

theorem Run_cluster_error (env : Env) (f : Flags) (e : String)
    (h : env.NewURLsMap f.restoreCluster = .error e) :
    Run env f = Fatalf [] ("failed creating url map for restore cluster: " ++ e) := by
  simp only [Run, h]

theorem Run_peer_error (env : Env) (f : Flags) (m : URLsMap) (e : String)
    (hc : env.NewURLsMap f.restoreCluster = .ok m)
    (hp : env.NewURLs f.restorePeerURLs = .error e) :
    Run env f = Fatalf [] ("failed parsing peers urls for restore cluster: " ++ e) := by
  simp only [Run, hc, hp]

theorem Run_parsed (env : Env) (f : Flags) (m : URLsMap) (us : URLs)
    (hc : env.NewURLsMap f.restoreCluster = .ok m)
    (hp : env.NewURLs f.restorePeerURLs = .ok us) :
    Run env f =
      match env.Initialize (builtOptions f m us) (builtConfig env f) with
      | some err =>
        Fatalf [Event.newInitializer (builtOptions f m us) (builtConfig env f),
          Event.initializeCall (some err)] ("initializer failed. " ++ err)
      | none =>
        { trace := [Event.newInitializer (builtOptions f m us) (builtConfig env f),
            Event.initializeCall none]
          outcome := Outcome.returned } := by
  simp only [Run, hc, hp, builtOptions, builtConfig]
  cases h : env.Initialize _ _ <;> simp [h]

/-- The three ways a run can go. -/
theorem Run_cases (env : Env) (f : Flags) :
    (∃ e, env.NewURLsMap f.restoreCluster = .error e ∧
      Run env f = Fatalf [] ("failed creating url map for restore cluster: " ++ e)) ∨
    (∃ m e, env.NewURLsMap f.restoreCluster = .ok m ∧
      env.NewURLs f.restorePeerURLs = .error e ∧
      Run env f = Fatalf [] ("failed parsing peers urls for restore cluster: " ++ e)) ∨
    (∃ m us, env.NewURLsMap f.restoreCluster = .ok m ∧
      env.NewURLs f.restorePeerURLs = .ok us ∧
      ((∃ err, env.Initialize (builtOptions f m us) (builtConfig env f) = some err ∧
          Run env f =
            Fatalf [Event.newInitializer (builtOptions f m us) (builtConfig env f),
              Event.initializeCall (some err)] ("initializer failed. " ++ err)) ∨
        (env.Initialize (builtOptions f m us) (builtConfig env f) = none ∧
          Run env f =
            { trace := [Event.newInitializer (builtOptions f m us) (builtConfig env f),
                Event.initializeCall none]
              outcome := Outcome.returned }))) := by
  cases hc : env.NewURLsMap f.restoreCluster with
  | error e => exact Or.inl ⟨e, rfl, Run_cluster_error env f e hc⟩
  | ok m =>
    cases hp : env.NewURLs f.restorePeerURLs with
    | error e => exact Or.inr (Or.inl ⟨m, e, rfl, rfl, Run_peer_error env f m e hc hp⟩)
    | ok us =>
      refine Or.inr (Or.inr ⟨m, us, rfl, rfl, ?_⟩)
      have h := Run_parsed env f m us hc hp
      cases hi : env.Initialize (builtOptions f m us) (builtConfig env f) with
      | none => rw [hi] at h; exact Or.inr ⟨rfl, h⟩
      | some err => rw [hi] at h; exact Or.inl ⟨err, rfl, h⟩

/-! ## The `path` functions -/

namespace path

theorem copyElement_eq (rest out : List Char) :
    copyElement rest out
      = (out ++ rest.takeWhile (fun c => decide (c ≠ '/')),
          rest.dropWhile (fun c => decide (c ≠ '/'))) := by
  induction rest generalizing out with
  | nil => simp [copyElement]
  | cons c tl ih =>
    by_cases hc : c = '/'
    · simp [copyElement, hc]
    · simp [copyElement, hc, ih]

theorem length_dropWhile_le (q : Char → Bool) (l : List Char) :
    (l.dropWhile q).length ≤ l.length := by
  induction l with
  | nil => simp
  | cons a l ih =>
    simp only [List.dropWhile_cons]
    split
    · exact Nat.le_succ_of_le ih
    · exact Nat.le_refl _

/-- The copy loop consumes at least the first byte of a real path element. -/
theorem copyElement_snd_length (c : Char) (tl out : List Char) (hc : c ≠ '/') :
    (copyElement (c :: tl) out).2.length ≤ tl.length := by
  rw [copyElement_eq]
  simp only [List.dropWhile_cons, hc, ne_eq, not_false_eq_true, decide_True, if_true]
  exact length_dropWhile_le _ tl

theorem backtrack_le (out : List Char) (dotdot w : Nat) : backtrack out dotdot w ≤ w := by
  induction w with
  | zero => simp [backtrack]
  | succ w ih =>
    simp only [backtrack]
    split
    · exact Nat.le_succ_of_le ih
    · exact Nat.le_refl _

theorem le_backtrack (out : List Char) (dotdot w : Nat) (h : dotdot ≤ w) :
    dotdot ≤ backtrack out dotdot w := by
  induction w with
  | zero => simpa [backtrack] using h
  | succ w ih =>
    simp only [backtrack]
    split
    · rename_i hlt
      exact ih (Nat.le_of_lt_succ hlt.1)
    · exact h

/-- The iteration bound of `cleanLoop` is never reached: any bound of at least
the length of the unread path gives the same result. -/
theorem cleanLoop_fuel (rooted : Bool) :
    ∀ (fuel : Nat) (rest out : List Char) (dotdot : Nat), rest.length ≤ fuel →
      cleanLoop rooted (fuel + 1) rest out dotdot = cleanLoop rooted fuel rest out dotdot := by
  intro fuel
  induction fuel with
  | zero =>
    intro rest out dotdot h
    have : rest = [] := List.length_eq_zero.mp (Nat.le_zero.mp h)
    subst this
    simp [cleanLoop]
  | succ n ih =>
    intro rest out dotdot h
    cases rest with
    | nil => simp [cleanLoop]
    | cons c tl =>
      have htl : tl.length ≤ n := by simpa using h
      have htt : tl.tail.length ≤ n := by
        have : tl.tail.length ≤ tl.length := by simp
        omega
      rw [cleanLoop]
      conv => rhs; rw [cleanLoop]
      simp only
      split_ifs <;>
        first
        | exact ih _ _ _ htl
        | exact ih _ _ _ htt
        | exact ih _ _ _ (Nat.le_trans (copyElement_snd_length c tl _ (by assumption)) htl)

theorem cleanLoop_nil (rooted : Bool) (fuel : Nat) (out : List Char) (dotdot : Nat) :
    cleanLoop rooted fuel [] out dotdot = out := by
  cases fuel <;> simp [cleanLoop]

/-- On a last path element that is a real name, the loop appends a separator
if the buffer needs one, then the element, and stops. -/
theorem cleanLoop_last_element (rooted : Bool) (v : List Char) (hv : v ≠ [])
    (hs : '/' ∉ v) (hd : v ≠ ['.']) (hdd : v ≠ ['.', '.'])
    (fuel : Nat) (out : List Char) (dotdot : Nat) :
    cleanLoop rooted (fuel + 1) v out dotdot
      = (if (rooted = true ∧ out.length ≠ 1) ∨ (rooted = false ∧ out.length ≠ 0)
          then out ++ ['/'] else out) ++ v := by
  cases v with
  | nil => exact absurd rfl hv
  | cons c tl =>
    have h1 : ¬ c = '/' := fun h => hs (by simp [h])
    have htl : ∀ x ∈ tl, x ≠ '/' := fun x hx h => hs (by subst h; simp [hx])
    have h2 : ¬ (c = '.' ∧ (tl = [] ∨ tl.head? = some '/')) := by
      rintro ⟨rfl, h | h⟩
      · exact hd (by simp [h])
      · cases tl with
        | nil => simp at h
        | cons d tl2 =>
          simp at h
          exact htl d (by simp) h
    have h3 : ¬ (c = '.' ∧ tl.head? = some '.' ∧ (tl.tail = [] ∨ tl.tail.head? = some '/')) := by
      rintro ⟨rfl, h, h' | h'⟩
      · cases tl with
        | nil => simp at h
        | cons d tl2 =>
          simp at h h'
          exact hdd (by simp [h, h'])
      · cases tl with
        | nil => simp at h
        | cons d tl2 =>
          cases tl2 with
          | nil => simp at h'
          | cons d2 tl3 =>
            simp at h'
            exact htl d2 (by simp) h'
    have hall : ∀ x ∈ c :: tl, (decide (x ≠ '/')) = true := by
      intro x hx
      rcases List.mem_cons.mp hx with rfl | hx
      · simpa using h1
      · simpa using htl x hx
    rw [cleanLoop]
    simp only [if_neg h1, if_neg h2, if_neg h3, copyElement_eq,
      List.takeWhile_eq_self_iff.mpr hall, List.dropWhile_eq_nil_iff.mpr hall, cleanLoop_nil]

/-- The unread path after a real byte still ends with `/` and the element `v`. -/
theorem tail_form (v : List Char) (c : Char) (tl t : List Char)
    (h : c :: tl = t ++ '/' :: v) (hc : c ≠ '/') : ∃ t2, tl = t2 ++ '/' :: v := by
  cases t with
  | nil =>
    simp at h
    exact absurd h.1 hc
  | cons d t2 =>
    simp at h
    exact ⟨t2, h.2⟩

theorem dropWhile_form (v : List Char) (q : Char → Bool) (hq : q '/' = false) :
    ∀ t : List Char, ∃ t2, (t ++ '/' :: v).dropWhile q = t2 ++ '/' :: v := by
  intro t
  induction t with
  | nil => exact ⟨[], by simp [List.dropWhile_cons, hq]⟩
  | cons d t ih =>
    simp only [List.cons_append, List.dropWhile_cons]
    split
    · exact ih
    · exact ⟨d :: t, rfl⟩

theorem head?_append_of_head? (out extra : List Char) (c : Char) (h : out.head? = some c) :
    (out ++ extra).head? = some c := by
  cases out with
  | nil => simp at h
  | cons d out => simpa using h

theorem BufferOk.append (rooted : Bool) (out extra : List Char) (dotdot : Nat)
    (h : BufferOk rooted out dotdot) : BufferOk rooted (out ++ extra) dotdot := by
  refine ⟨?_, fun hr => ⟨(h.2 hr).1, head?_append_of_head? out extra '/' (h.2 hr).2⟩⟩
  have := h.1
  simp only [List.length_append]
  omega

theorem BufferOk.backtrack (rooted : Bool) (out : List Char) (dotdot : Nat)
    (h : BufferOk rooted out dotdot) (hlt : dotdot < out.length) :
    BufferOk rooted (out.take (path.backtrack out dotdot (out.length - 1))) dotdot := by
  have hle : dotdot ≤ path.backtrack out dotdot (out.length - 1) :=
    le_backtrack out dotdot (out.length - 1) (by omega)
  have hup : path.backtrack out dotdot (out.length - 1) ≤ out.length - 1 :=
    backtrack_le out dotdot (out.length - 1)
  refine ⟨?_, fun hr => ⟨(h.2 hr).1, ?_⟩⟩
  · rw [List.length_take]
    omega
  · have h1 : 1 ≤ dotdot := (h.2 hr).1
    rw [List.head?_take, if_neg (by omega)]
    exact (h.2 hr).2

theorem endsWithElement_last (rooted : Bool) (v : List Char) (hv : v ≠ [])
    (hs : '/' ∉ v) (hd : v ≠ ['.']) (hdd : v ≠ ['.', '.'])
    (fuel : Nat) (out : List Char) (dotdot : Nat) (hok : BufferOk rooted out dotdot) :
    EndsWithElement v (cleanLoop rooted (fuel + 1) v out dotdot) := by
  rw [cleanLoop_last_element rooted v hv hs hd hdd]
  split
  · exact Or.inr ⟨out, by simp⟩
  · rename_i hno
    cases rooted with
    | true =>
      have hlen : out.length = 1 := by
        by_contra hne
        exact hno (Or.inl ⟨rfl, hne⟩)
      have hhead := (hok.2 rfl).2
      match out, hlen, hhead with
      | [c], _, hhead =>
        simp at hhead
        subst hhead
        exact Or.inr ⟨[], rfl⟩
    | false =>
      have hlen : out.length = 0 := by
        by_contra hne
        exact hno (Or.inr ⟨rfl, hne⟩)
      have : out = [] := List.length_eq_zero.mp hlen
      subst this
      exact Or.inl rfl

/-- Whatever precedes it, a last path element that is a real name is the last
path element of what the loop of `Clean` produces. -/
theorem cleanLoop_endsWithElement (rooted : Bool) (v : List Char) (hv : v ≠ [])
    (hs : '/' ∉ v) (hd : v ≠ ['.']) (hdd : v ≠ ['.', '.']) :
    ∀ (fuel : Nat) (rest out : List Char) (dotdot : Nat), rest.length ≤ fuel →
      (∃ t, rest = t ++ '/' :: v) → BufferOk rooted out dotdot →
      EndsWithElement v (cleanLoop rooted fuel rest out dotdot) := by
  intro fuel
  induction fuel with
  | zero =>
    rintro rest out dotdot hlen ⟨t, rfl⟩ _
    simp at hlen
  | succ n ih =>
    rintro rest out dotdot hlen ⟨t, hform⟩ hok
    cases rest with
    | nil => simp at hform
    | cons c tl =>
      have htl : tl.length ≤ n := by simpa using hlen
      rw [cleanLoop]
      simp only
      by_cases h1 : c = '/'
      · rw [if_pos h1]
        cases t with
        | nil =>
          simp only [List.nil_append, List.cons.injEq] at hform
          rw [hform.2] at htl ⊢
          cases n with
          | zero =>
            simp at htl
            exact absurd htl hv
          | succ k => exact endsWithElement_last rooted v hv hs hd hdd k out dotdot hok
        | cons d t2 =>
          simp only [List.cons_append, List.cons.injEq] at hform
          exact ih tl out dotdot htl ⟨t2, hform.2⟩ hok
      · obtain ⟨t2, ht2⟩ := tail_form v c tl t hform h1
        rw [if_neg h1]
        by_cases h2 : c = '.' ∧ (tl = [] ∨ tl.head? = some '/')
        · rw [if_pos h2]
          exact ih tl out dotdot htl ⟨t2, ht2⟩ hok
        · rw [if_neg h2]
          by_cases h3 : c = '.' ∧ tl.head? = some '.' ∧
              (tl.tail = [] ∨ tl.tail.head? = some '/')
          · rw [if_pos h3]
            have hform2 : ∃ t3, tl.tail = t3 ++ '/' :: v := by
              cases tl with
              | nil => simp at ht2
              | cons d tl2 =>
                have hdot : d = '.' := by simpa using h3.2.1
                exact tail_form v d tl2 t2 ht2 (by rw [hdot]; decide)
            have htt : tl.tail.length ≤ n := by
              have : tl.tail.length ≤ tl.length := by simp
              omega
            split_ifs with h4 h5
            · exact ih _ _ _ htt hform2 (BufferOk.backtrack rooted out dotdot hok h4)
            · exact ih _ _ _ htt hform2 ⟨Nat.le_refl _, fun hr => by simp [h5] at hr⟩
            · exact ih _ _ _ htt hform2 ⟨Nat.le_refl _, fun hr => by simp [h5] at hr⟩
            · exact ih _ _ _ htt hform2 hok
          · rw [if_neg h3]
            have hlen2 := copyElement_snd_length c tl
              (if (rooted = true ∧ out.length ≠ 1) ∨ (rooted = false ∧ out.length ≠ 0)
                then out ++ ['/'] else out) h1
            refine ih _ _ _ (Nat.le_trans hlen2 htl) ?_ ?_
            · rw [copyElement_eq, hform]
              exact dropWhile_form v _ (by decide) t
            · rw [copyElement_eq]
              simp only
              split
              · rw [List.append_assoc]
                exact BufferOk.append rooted out _ dotdot hok
              · exact BufferOk.append rooted out _ dotdot hok

theorem endsWithElement_ne_nil (v res : List Char) (hv : v ≠ [])
    (h : EndsWithElement v res) : res ≠ [] := by
  rcases h with rfl | ⟨pre, rfl⟩
  · exact hv
  · simp

/-- The result of `path.Join(p, v)` has `v` as its last path element when `v` is a
single real path element. -/
theorem joinBytes_endsWithElement (p v : List Char) (hv : v ≠ [])
    (hs : '/' ∉ v) (hd : v ≠ ['.']) (hdd : v ≠ ['.', '.']) :
    EndsWithElement v (joinBytes [p, v]) := by
  have hvhead : ¬ v.head? = some '/' := by
    cases v with
    | nil => simp
    | cons c tl =>
      intro h
      simp at h
      exact hs (by simp [h])
  by_cases hp : p = []
  · subst hp
    have hres : cleanLoop false v.length v [] 0 = v := by
      cases v with
      | nil => exact absurd rfl hv
      | cons c tl =>
        rw [List.length_cons, cleanLoop_last_element false (c :: tl) hv hs hd hdd]
        simp
    simp [joinBytes, joinSlash, cleanBytes, hv, hvhead, hres]
    exact Or.inl rfl
  · cases p with
    | nil => exact absurd rfl hp
    | cons c p2 =>
      by_cases hc : c = '/'
      · subst hc
        have h := cleanLoop_endsWithElement true v hv hs hd hdd
          (p2 ++ '/' :: v).length.succ (p2 ++ '/' :: v) ['/'] 1 (Nat.le_succ _) ⟨p2, rfl⟩
          ⟨by simp, fun _ => ⟨Nat.le_refl _, rfl⟩⟩
        have hne : (cleanLoop true (p2 ++ '/' :: v).length.succ (p2 ++ '/' :: v) ['/'] 1).length ≠ 0 :=
          fun h0 => endsWithElement_ne_nil v _ hv h (List.length_eq_zero.mp h0)
        have hcb : cleanBytes ('/' :: p2 ++ '/' :: v)
            = cleanLoop true (p2 ++ '/' :: v).length.succ (p2 ++ '/' :: v) ['/'] 1 := by
          unfold cleanBytes
          rw [if_neg (by simp)]
          simp only [List.cons_append, List.head?_cons, decide_True, if_true, List.drop_succ_cons,
            List.drop_zero, List.length_cons]
          exact if_neg hne
        simp only [joinBytes, joinSlash, if_pos hp]
        rw [hcb]
        exact h
      · have h := cleanLoop_endsWithElement false v hv hs hd hdd
          (c :: p2 ++ '/' :: v).length (c :: p2 ++ '/' :: v) [] 0 (Nat.le_refl _) ⟨c :: p2, rfl⟩
          ⟨by simp, fun hr => by simp at hr⟩
        have hne : (cleanLoop false (c :: p2 ++ '/' :: v).length (c :: p2 ++ '/' :: v) [] 0).length ≠ 0 :=
          fun h0 => endsWithElement_ne_nil v _ hv h (List.length_eq_zero.mp h0)
        have hcb : cleanBytes (c :: p2 ++ '/' :: v)
            = cleanLoop false (c :: p2 ++ '/' :: v).length (c :: p2 ++ '/' :: v) [] 0 := by
          unfold cleanBytes
          rw [if_neg (by simp)]
          have hr : decide ((c :: p2 ++ '/' :: v).head? = some '/') = false := by simp [hc]
          simp only [hr, Bool.false_eq_true, if_false]
          exact if_neg hne
        simp only [joinBytes, joinSlash, if_pos hp]
        rw [hcb]
        exact h

theorem cleanLoop_head (fuel : Nat) :
    ∀ (rest out : List Char) (dotdot : Nat), out.head? ≠ some '/' →
      (cleanLoop false fuel rest out dotdot).head? ≠ some '/' := by
  induction fuel with
  | zero =>
    intro rest out dotdot h
    simpa [cleanLoop] using h
  | succ n ih =>
    intro rest out dotdot h
    cases rest with
    | nil => simpa [cleanLoop] using h
    | cons c tl =>
      rw [cleanLoop]
      simp only
      by_cases h1 : c = '/'
      · rw [if_pos h1]
        exact ih _ _ _ h
      · rw [if_neg h1]
        by_cases h2 : c = '.' ∧ (tl = [] ∨ tl.head? = some '/')
        · rw [if_pos h2]
          exact ih _ _ _ h
        · rw [if_neg h2]
          by_cases h3 : c = '.' ∧ tl.head? = some '.' ∧
              (tl.tail = [] ∨ tl.tail.head? = some '/')
          · rw [if_pos h3]
            by_cases h4 : dotdot < out.length
            · rw [if_pos h4]
              refine ih _ _ _ ?_
              rw [List.head?_take]
              split
              · simp
              · exact h
            · rw [if_neg h4, if_pos trivial]
              refine ih _ _ _ ?_
              cases out with
              | nil => simp
              | cons d out2 => simpa using h
          · rw [if_neg h3]
            refine ih _ _ _ ?_
            rw [copyElement_eq]
            cases out with
            | nil => simp [List.takeWhile_cons, h1]
            | cons d out2 => simpa using h

/-- A path without a leading slash is cleaned to one without a leading slash. -/
theorem cleanBytes_head (p : List Char) (h : p.head? ≠ some '/') :
    (cleanBytes p).head? ≠ some '/' := by
  unfold cleanBytes
  split
  · simp
  · simp only [h, decide_False, Bool.false_eq_true, if_false]
    split
    · simp
    · exact cleanLoop_head _ _ _ _ (by simp)

/-! ### `Clean` computes the lexically cleaned form -/

theorem joinSlash_cons_cons (e e2 : List Char) (es : List (List Char)) :
    joinSlash (e :: e2 :: es) = e ++ '/' :: joinSlash (e2 :: es) := by
  simp [joinSlash]

theorem joinSlash_append_singleton (l : List (List Char)) (e : List Char) :
    joinSlash (l ++ [e]) = if l = [] then e else joinSlash l ++ '/' :: e := by
  induction l with
  | nil => simp [joinSlash]
  | cons a l ih =>
    cases l with
    | nil => simp [joinSlash]
    | cons b l =>
      simp only [List.cons_append, joinSlash_cons_cons] at ih ⊢
      rw [ih]
      simp

theorem joinSlash_eq_nil (l : List (List Char)) (h : ∀ e ∈ l, e ≠ []) :
    joinSlash l = [] ↔ l = [] := by
  cases l with
  | nil => simp [joinSlash]
  | cons a l =>
    have ha : a ≠ [] := h a (by simp)
    cases l with
    | nil => simp [joinSlash, ha]
    | cons b l => simp [joinSlash_cons_cons]

/-- Keeping one more element appends it, after a slash unless it is the first. -/
theorem render_cons (rooted : Bool) (e : List Char) (st : List (List Char)) :
    render rooted (e :: st)
      = render rooted st ++ ((if st = [] then [] else ['/']) ++ e) := by
  unfold render
  rw [List.reverse_cons, joinSlash_append_singleton]
  by_cases h : st = []
  · subst h
    simp [joinSlash]
  · simp [h]

theorem render_false_eq_nil (st : List (List Char)) (h : ∀ e ∈ st, e ≠ []) :
    render false st = [] ↔ st = [] := by
  unfold render
  simp only [Bool.false_eq_true, if_false, List.nil_append]
  rw [joinSlash_eq_nil _ (fun e he => h e (List.mem_reverse.mp he))]
  simp

theorem render_true_length (st : List (List Char)) (h : ∀ e ∈ st, e ≠ []) :
    (render true st).length = 1 ↔ st = [] := by
  unfold render
  simp only [if_true, List.singleton_append, List.length_cons, Nat.add_left_eq_self,
    List.length_eq_zero]
  rw [joinSlash_eq_nil _ (fun e he => h e (List.mem_reverse.mp he))]
  simp

theorem render_length_le (rooted : Bool) (dots : List (List Char)) :
    ∀ real : List (List Char),
      (render rooted dots).length ≤ (render rooted (real ++ dots)).length := by
  intro real
  induction real with
  | nil => simp
  | cons a real ih =>
    rw [List.cons_append, render_cons, List.length_append]
    omega

theorem mem_stack_ne_nil (k : Nat) (real : List (List Char))
    (h : ∀ e ∈ real, e ≠ [] ∧ '/' ∉ e ∧ e ≠ ['.', '.']) :
    ∀ e ∈ real ++ List.replicate k ['.', '.'], e ≠ [] := by
  intro e he
  rcases List.mem_append.mp he with he | he
  · exact (h e he).1
  · rw [(List.mem_replicate.mp he).2]
    simp

theorem getD_append_add (pre rest : List Char) (j : Nat) :
    (pre ++ rest).getD (pre.length + j) '/' = rest.getD j '/' := by
  induction pre with
  | nil => simp
  | cons a pre ih =>
    rw [List.cons_append, List.length_cons,
      show pre.length + 1 + j = (pre.length + j) + 1 by omega, List.getD_cons_succ]
    exact ih

theorem getD_ne_slash (top : List Char) (hs : '/' ∉ top) (j : Nat) (hj : j < top.length) :
    top.getD j '/' ≠ '/' := by
  rw [List.getD_eq_getElem top '/' hj]
  intro h0
  exact hs (h0 ▸ List.getElem_mem hj)

/-- Backtracking over a last element that follows a slash stops at that slash. -/
theorem backtrack_slash (pre top : List Char) (dotdot : Nat) (hdd : dotdot ≤ pre.length)
    (hs : '/' ∉ top) :
    ∀ j, j < top.length →
      backtrack (pre ++ '/' :: top) dotdot (pre.length + 1 + j) = pre.length := by
  have hstop : backtrack (pre ++ '/' :: top) dotdot pre.length = pre.length := by
    cases hp : pre.length with
    | zero => simp [backtrack]
    | succ n =>
      have hget : (pre ++ '/' :: top).getD (n + 1) '/' = '/' := by
        have := getD_append_add pre ('/' :: top) 0
        rw [Nat.add_zero, hp] at this
        rw [this]
        rfl
      rw [backtrack, if_neg (fun h => h.2 hget)]
  intro j
  induction j with
  | zero =>
    intro hj
    have hget : (pre ++ '/' :: top).getD (pre.length + 1) '/' ≠ '/' := by
      rw [getD_append_add pre ('/' :: top) 1, List.getD_cons_succ]
      exact getD_ne_slash top hs 0 hj
    rw [Nat.add_zero, backtrack, if_pos ⟨by omega, hget⟩]
    exact hstop
  | succ j ih =>
    intro hj
    have hget : (pre ++ '/' :: top).getD (pre.length + 1 + j + 1) '/' ≠ '/' := by
      rw [show pre.length + 1 + j + 1 = pre.length + (j + 1 + 1) by omega,
        getD_append_add pre ('/' :: top) (j + 1 + 1), List.getD_cons_succ]
      exact getD_ne_slash top hs (j + 1) hj
    rw [show pre.length + 1 + (j + 1) = (pre.length + 1 + j) + 1 by omega, backtrack,
      if_pos ⟨by omega, hget⟩]
    exact ih (by omega)

/-- Backtracking over a last element that starts at `dotdot` stops there. -/
theorem backtrack_first (pre top : List Char) (hs : '/' ∉ top) :
    ∀ j, j < top.length →
      backtrack (pre ++ top) pre.length (pre.length + j) = pre.length := by
  intro j
  induction j with
  | zero =>
    intro _
    cases hp : pre.length with
    | zero => simp [backtrack]
    | succ n => simp [backtrack]
  | succ j ih =>
    intro hj
    have hget : (pre ++ top).getD (pre.length + j + 1) '/' ≠ '/' := by
      rw [show pre.length + j + 1 = pre.length + (j + 1) by omega, getD_append_add]
      exact getD_ne_slash top hs (j + 1) hj
    rw [show pre.length + (j + 1) = (pre.length + j) + 1 by omega, backtrack,
      if_pos ⟨by omega, hget⟩]
    exact ih (by omega)

/-- The `..` case of `Clean` removes the last kept element and its slash. -/
theorem take_backtrack (pre sep top : List Char) (dotdot : Nat)
    (htop : top ≠ []) (hs : '/' ∉ top) (hdd : dotdot ≤ pre.length)
    (hsep : sep = ['/'] ∨ (sep = [] ∧ dotdot = pre.length)) :
    (pre ++ (sep ++ top)).take
        (backtrack (pre ++ (sep ++ top)) dotdot ((pre ++ (sep ++ top)).length - 1))
      = pre := by
  have hlen : 0 < top.length := List.length_pos.mpr htop
  rcases hsep with rfl | ⟨rfl, rfl⟩
  · have h := backtrack_slash pre top dotdot hdd hs (top.length - 1) (by omega)
    have hidx : (pre ++ (['/'] ++ top)).length - 1 = pre.length + 1 + (top.length - 1) := by
      simp only [List.length_append, List.length_singleton]
      omega
    rw [hidx]
    simp only [List.singleton_append]
    rw [h]
    simp
  · have h := backtrack_first pre top hs (top.length - 1) (by omega)
    have hidx : (pre ++ ([] ++ top)).length - 1 = pre.length + (top.length - 1) := by
      simp only [List.length_append, List.nil_append]
      omega
    rw [hidx]
    simp only [List.nil_append]
    rw [h]
    simp

/-- The first element of a path and the elements after it. -/
theorem splitSlash_head (l : List Char) :
    ∃ es, splitSlash l = l.takeWhile (fun c => decide (c ≠ '/')) :: es ∧
      splitSlash (l.dropWhile (fun c => decide (c ≠ '/'))) = [] :: es := by
  induction l with
  | nil => exact ⟨[], by simp [splitSlash], by simp [splitSlash]⟩
  | cons c tl ih =>
    by_cases hc : c = '/'
    · subst hc
      exact ⟨splitSlash tl, by simp [splitSlash], by simp [splitSlash]⟩
    · obtain ⟨es, h1, h2⟩ := ih
      refine ⟨es, ?_, ?_⟩
      · simp [splitSlash, hc, h1]
      · simpa [hc] using h2

theorem takeWhile_eq_nil_of (tl : List Char) (h : tl = [] ∨ tl.head? = some '/') :
    tl.takeWhile (fun c => decide (c ≠ '/')) = [] ∧
      tl.dropWhile (fun c => decide (c ≠ '/')) = tl := by
  cases tl with
  | nil => simp
  | cons d tl2 =>
    have hd : d = '/' := by simpa using h
    subst hd
    simp

theorem of_takeWhile_eq_nil (tl : List Char)
    (h : tl.takeWhile (fun c => decide (c ≠ '/')) = []) : tl = [] ∨ tl.head? = some '/' := by
  cases tl with
  | nil => exact Or.inl rfl
  | cons d tl2 =>
    by_cases hd : d = '/'
    · exact Or.inr (by simp [hd])
    · simp [List.takeWhile_cons, hd] at h

theorem applyElement_nil (rooted : Bool) (st : List (List Char)) :
    applyElement rooted st [] = st := by
  simp [applyElement]

theorem applyElement_dot (rooted : Bool) (st : List (List Char)) :
    applyElement rooted st ['.'] = st := by
  simp [applyElement]

theorem applyElement_name (rooted : Bool) (st : List (List Char)) (e : List Char)
    (h0 : e ≠ []) (h1 : e ≠ ['.']) (h2 : e ≠ ['.', '.']) :
    applyElement rooted st e = e :: st := by
  simp [applyElement, h0, h1, h2]

/-- When the buffer is no longer than `dotdot`, no name is kept. -/
theorem rep_real_nil (rooted : Bool) (k : Nat) (real : List (List Char)) (out : List Char)
    (dotdot : Nat) (h : Rep rooted k real out dotdot) (hle : ¬ dotdot < out.length) :
    real = [] := by
  obtain ⟨hgood, _, hout, hdd⟩ := h
  cases real with
  | nil => rfl
  | cons top real2 =>
    exfalso
    apply hle
    have htop : 0 < top.length := List.length_pos.mpr (hgood top (by simp)).1
    have hmono := render_length_le rooted (List.replicate k ['.', '.']) real2
    rw [hout, hdd, List.cons_append, render_cons]
    simp only [List.length_append]
    omega

/-- The `..` case of `Clean` when it can backtrack: the last kept name goes. -/
theorem rep_backtrack (rooted : Bool) (k : Nat) (real : List (List Char)) (out : List Char)
    (dotdot : Nat) (h : Rep rooted k real out dotdot) (hlt : dotdot < out.length) :
    ∃ real2, Rep rooted k real2
        (out.take (path.backtrack out dotdot (out.length - 1))) dotdot ∧
      applyElement rooted (real ++ List.replicate k ['.', '.']) ['.', '.']
        = real2 ++ List.replicate k ['.', '.'] := by
  obtain ⟨hgood, hk, hout, hdd⟩ := h
  cases real with
  | nil =>
    exfalso
    rw [hout, hdd] at hlt
    simp at hlt
  | cons top real2 =>
    obtain ⟨htop, hs, hne⟩ := hgood top (by simp)
    refine ⟨real2, ⟨fun e he => hgood e (by simp [he]), hk, ?_, hdd⟩, ?_⟩
    · have hmono := render_length_le rooted (List.replicate k ['.', '.']) real2
      rw [hout, List.cons_append, render_cons]
      refine take_backtrack _ _ top dotdot htop hs (by omega) ?_
      by_cases hst : real2 ++ List.replicate k ['.', '.'] = []
      · refine Or.inr ⟨by simp [hst], ?_⟩
        have hr : real2 = [] := (List.append_eq_nil.mp hst).1
        rw [hdd, hr]
        simp
      · exact Or.inl (by simp [hst])
    · simp [applyElement, hne]

/-- The `..` case of `Clean` on an unrooted path that cannot backtrack: one
more leading `..` is kept. -/
theorem rep_push_dotdot (k : Nat) (real : List (List Char)) (out : List Char)
    (dotdot : Nat) (h : Rep false k real out dotdot) (hle : ¬ dotdot < out.length) :
    Rep false (k + 1) []
        ((if 0 < out.length then out ++ ['/'] else out) ++ ['.', '.'])
        ((if 0 < out.length then out ++ ['/'] else out) ++ ['.', '.']).length ∧
      applyElement false (real ++ List.replicate k ['.', '.']) ['.', '.']
        = [] ++ List.replicate (k + 1) ['.', '.'] := by
  have hreal := rep_real_nil false k real out dotdot h hle
  subst hreal
  obtain ⟨_, _, hout, _⟩ := h
  simp only [List.nil_append] at hout
  have hnil : out = [] ↔ List.replicate k ['.', '.'] = [] := by
    rw [hout]
    exact render_false_eq_nil _ (mem_stack_ne_nil k [] (by simp))
  have hout2 : (if 0 < out.length then out ++ ['/'] else out) ++ ['.', '.']
      = render false (List.replicate (k + 1) ['.', '.']) := by
    rw [List.replicate_succ, render_cons, ← hout]
    by_cases h0 : out = []
    · have hr := hnil.mp h0
      simp [h0, hr]
    · have hr : ¬ List.replicate k ['.', '.'] = [] := fun hr => h0 (hnil.mpr hr)
      have hpos : 0 < out.length := List.length_pos.mpr h0
      simp [hpos, hr]
  refine ⟨⟨by simp, by simp, by simpa using hout2, by rw [hout2]⟩, ?_⟩
  cases k with
  | zero => simp [applyElement]
  | succ n => simp [applyElement, List.replicate_succ]

/-- The `..` case of `Clean` at the root of a rooted path: nothing changes. -/
theorem rep_root_dotdot (k : Nat) (real : List (List Char)) (out : List Char)
    (dotdot : Nat) (h : Rep true k real out dotdot) (hle : ¬ dotdot < out.length) :
    applyElement true (real ++ List.replicate k ['.', '.']) ['.', '.']
      = real ++ List.replicate k ['.', '.'] := by
  have hreal := rep_real_nil true k real out dotdot h hle
  subst hreal
  have hk : k = 0 := h.2.1 rfl
  subst hk
  simp [applyElement]

/-- The default case of `Clean`: a name is kept, after a slash if needed. -/
theorem rep_push (rooted : Bool) (k : Nat) (real : List (List Char)) (out : List Char)
    (dotdot : Nat) (h : Rep rooted k real out dotdot) (e : List Char)
    (h0 : e ≠ []) (hs : '/' ∉ e) (h1 : e ≠ ['.']) (h2 : e ≠ ['.', '.']) :
    Rep rooted k (e :: real)
        ((if (rooted = true ∧ out.length ≠ 1) ∨ (rooted = false ∧ out.length ≠ 0)
          then out ++ ['/'] else out) ++ e) dotdot ∧
      applyElement rooted (real ++ List.replicate k ['.', '.']) e
        = (e :: real) ++ List.replicate k ['.', '.'] := by
  obtain ⟨hgood, hk, hout, hdd⟩ := h
  have hne := mem_stack_ne_nil k real hgood
  refine ⟨⟨?_, hk, ?_, hdd⟩, by rw [applyElement_name rooted _ e h0 h1 h2]; rfl⟩
  · intro x hx
    rcases List.mem_cons.mp hx with rfl | hx
    · exact ⟨h0, hs, h2⟩
    · exact hgood x hx
  · rw [List.cons_append, render_cons, ← hout]
    have hcond : ((rooted = true ∧ out.length ≠ 1) ∨ (rooted = false ∧ out.length ≠ 0))
        ↔ ¬ real ++ List.replicate k ['.', '.'] = [] := by
      cases rooted with
      | true =>
        have := render_true_length _ hne
        rw [← hout] at this
        simp [this]
      | false =>
        have := render_false_eq_nil _ hne
        rw [← hout] at this
        simp [← this]
    by_cases hst : real ++ List.replicate k ['.', '.'] = []
    · rw [if_neg (fun hc => (hcond.mp hc) hst), if_pos hst]
      simp
    · rw [if_pos (hcond.mpr hst), if_neg hst]
      simp

/-- The loop of `Clean` applies the rules of the documentation to the elements
of the unread path, one element at a time. -/
theorem cleanLoop_refines (rooted : Bool) :
    ∀ (fuel : Nat) (rest out : List Char) (dotdot k : Nat) (real : List (List Char)),
      rest.length ≤ fuel → Rep rooted k real out dotdot →
      cleanLoop rooted fuel rest out dotdot
        = render rooted
            ((splitSlash rest).foldl (applyElement rooted)
              (real ++ List.replicate k ['.', '.'])) := by
  intro fuel
  induction fuel with
  | zero =>
    intro rest out dotdot k real hlen hrep
    have : rest = [] := List.length_eq_zero.mp (Nat.le_zero.mp hlen)
    subst this
    simp [cleanLoop, splitSlash, applyElement_nil, hrep.2.2.1]
  | succ n ih =>
    intro rest out dotdot k real hlen hrep
    cases rest with
    | nil => simp [cleanLoop, splitSlash, applyElement_nil, hrep.2.2.1]
    | cons c tl =>
      have htl : tl.length ≤ n := by simpa using hlen
      rw [cleanLoop]
      simp only
      by_cases h1 : c = '/'
      · rw [if_pos h1, ih tl out dotdot k real htl hrep]
        simp [splitSlash, h1, applyElement_nil]
      · rw [if_neg h1]
        obtain ⟨es, hsplit, hdrop⟩ := splitSlash_head (c :: tl)
        have htake : (c :: tl).takeWhile (fun c => decide (c ≠ '/'))
            = c :: tl.takeWhile (fun c => decide (c ≠ '/')) := by
          simp [List.takeWhile_cons, h1]
        have hdropc : (c :: tl).dropWhile (fun c => decide (c ≠ '/'))
            = tl.dropWhile (fun c => decide (c ≠ '/')) := by
          simp [List.dropWhile_cons, h1]
        rw [htake] at hsplit
        rw [hdropc] at hdrop
        rw [hsplit, List.foldl_cons]
        -- what remains after the element, for any stack
        have hrest : ∀ st : List (List Char),
            List.foldl (applyElement rooted) st
                (splitSlash (tl.dropWhile (fun c => decide (c ≠ '/'))))
              = List.foldl (applyElement rooted) st es := by
          intro st
          rw [hdrop, List.foldl_cons, applyElement_nil]
        by_cases h2 : c = '.' ∧ (tl = [] ∨ tl.head? = some '/')
        · rw [if_pos h2]
          obtain ⟨ht, hd⟩ := takeWhile_eq_nil_of tl h2.2
          rw [ih tl out dotdot k real htl hrep, ht, h2.1, applyElement_dot, ← hrest, hd]
        · rw [if_neg h2]
          by_cases h3 : c = '.' ∧ tl.head? = some '.' ∧
              (tl.tail = [] ∨ tl.tail.head? = some '/')
          · rw [if_pos h3]
            cases tl with
            | nil => simp at h3
            | cons d tl2 =>
              have hd : d = '.' := by simpa using h3.2.1
              subst hd
              have htl2 : tl2.length ≤ n := by
                simp only [List.length_cons] at htl
                omega
              obtain ⟨ht, hdr⟩ := takeWhile_eq_nil_of tl2 h3.2.2
              have he : c :: List.takeWhile (fun c => decide (c ≠ '/')) ('.' :: tl2)
                  = ['.', '.'] := by
                rw [h3.1, List.takeWhile_cons_of_pos (by decide), ht]
              have hr : List.dropWhile (fun c => decide (c ≠ '/')) ('.' :: tl2) = tl2 := by
                rw [List.dropWhile_cons_of_pos (by decide), hdr]
              rw [he, ← hrest, hr]
              simp only [List.tail_cons]
              by_cases h4 : dotdot < out.length
              · rw [if_pos h4]
                obtain ⟨real2, hrep2, happ⟩ := rep_backtrack rooted k real out dotdot hrep h4
                rw [ih tl2 _ dotdot k real2 htl2 hrep2, happ]
              · rw [if_neg h4]
                cases rooted with
                | false =>
                  rw [if_pos rfl]
                  obtain ⟨hrep2, happ⟩ := rep_push_dotdot k real out dotdot hrep h4
                  rw [ih tl2 _ _ (k + 1) [] htl2 hrep2, happ]
                | true =>
                  rw [if_neg (by simp)]
                  rw [ih tl2 out dotdot k real htl2 hrep,
                    rep_root_dotdot k real out dotdot hrep h4]
          · rw [if_neg h3]
            have hmem : '/' ∉ c :: tl.takeWhile (fun c => decide (c ≠ '/')) := by
              intro hin
              rcases List.mem_cons.mp hin with h | h
              · exact h1 h.symm
              · simpa using List.mem_takeWhile_imp h
            have hne1 : c :: tl.takeWhile (fun c => decide (c ≠ '/')) ≠ ['.'] := by
              intro h
              simp only [List.cons.injEq] at h
              exact h2 ⟨h.1, of_takeWhile_eq_nil tl h.2⟩
            have hne2 : c :: tl.takeWhile (fun c => decide (c ≠ '/')) ≠ ['.', '.'] := by
              intro h
              simp only [List.cons.injEq] at h
              cases tl with
              | nil => simp at h
              | cons d tl2 =>
                by_cases hd : d = '/'
                · simp [List.takeWhile_cons, hd] at h
                · simp only [List.takeWhile_cons, ne_eq, hd, not_false_eq_true, decide_True,
                    if_true, List.cons.injEq] at h
                  exact h3 ⟨h.1, by simp [h.2.1], by
                    simpa using of_takeWhile_eq_nil tl2 h.2.2⟩
            obtain ⟨hrep2, happ⟩ := rep_push rooted k real out dotdot hrep
              (c :: tl.takeWhile (fun c => decide (c ≠ '/'))) (by simp) hmem hne1 hne2
            have hlen2 := copyElement_snd_length c tl
              (if (rooted = true ∧ out.length ≠ 1) ∨ (rooted = false ∧ out.length ≠ 0)
                then out ++ ['/'] else out) h1
            rw [copyElement_eq] at hlen2 ⊢
            simp only at hlen2 ⊢
            rw [hdropc] at hlen2
            rw [htake, hdropc]
            rw [ih _ _ dotdot k ((c :: tl.takeWhile (fun c => decide (c ≠ '/'))) :: real)
              (Nat.le_trans hlen2 htl) hrep2, hrest, happ]

/-- `Clean` returns the lexically cleaned form of its argument. -/
theorem cleanBytes_eq_lexicalClean (p : List Char) : cleanBytes p = lexicalClean p := by
  cases p with
  | nil => simp [cleanBytes, lexicalClean, splitSlash, applyElement_nil, render, joinSlash]
  | cons c p2 =>
    by_cases hc : c = '/'
    · subst hc
      have hrep : Rep true 0 [] ['/'] 1 :=
        ⟨by simp, fun _ => rfl, by simp [render, joinSlash], by simp [render, joinSlash]⟩
      have h := cleanLoop_refines true ('/' :: p2).length p2 ['/'] 1 0 [] (by simp) hrep
      simp only [List.replicate_zero, List.append_nil] at h
      simp only [cleanBytes, lexicalClean, List.head?_cons, decide_True, if_true,
        List.drop_succ_cons, List.drop_zero, splitSlash, List.foldl_cons, applyElement_nil,
        if_neg (List.cons_ne_nil _ _), h, List.length_eq_zero]
    · have hrep : Rep false 0 [] [] 0 :=
        ⟨by simp, by simp, by simp [render, joinSlash], by simp [render, joinSlash]⟩
      have h := cleanLoop_refines false (c :: p2).length (c :: p2) [] 0 0 []
        (Nat.le_refl _) hrep
      simp only [List.replicate_zero, List.append_nil] at h
      have hr : decide ((c :: p2).head? = some '/') = false := by simp [hc]
      simp only [cleanBytes, lexicalClean, hr, Bool.false_eq_true, if_false,
        if_neg (List.cons_ne_nil _ _), h, List.length_eq_zero]

theorem data_ne_nil (s : String) (h : s ≠ "") : s.data ≠ [] := by
  intro h0
  exact h (String.ext h0)

/-- With a non-empty first element, `Join` cleans the two elements joined by a
single slash. -/
theorem Join_of_ne (p v : String) (hp : p ≠ "") :
    Join [p, v] = Clean (p ++ "/" ++ v) := by
  have h := data_ne_nil p hp
  simp [Join, Clean, joinBytes, joinSlash, h, String.data_append]

/-- With an empty first element, `Join` cleans the second element alone. -/
theorem Join_empty (v : String) (hv : v ≠ "") : Join ["", v] = Clean v := by
  have h := data_ne_nil v hv
  simp [Join, Clean, joinBytes, joinSlash, h]

/-- `path.Clean` returns the lexically cleaned form of its argument. -/
theorem Clean_eq_LexicallyCleaned (p : String) : Clean p = LexicallyCleaned p := by
  unfold Clean LexicallyCleaned
  rw [cleanBytes_eq_lexicalClean]

/-- `path.Join` of all-empty elements is the empty string. -/
theorem Join_empty_empty : Join ["", ""] = "" := by
  simp [Join, joinBytes]

theorem Join_endsWith (p v : String) (hv : v ≠ "") (hs : '/' ∉ v.data)
    (hd : v ≠ ".") (hdd : v ≠ "..") :
    Join [p, v] = v ∨ ∃ pre : String, Join [p, v] = pre ++ "/" ++ v := by
  have h := joinBytes_endsWithElement p.data v.data (data_ne_nil v hv) hs
    (fun h0 => hd (String.ext h0)) (fun h0 => hdd (String.ext h0))
  rcases h with h | ⟨pre, h⟩
  · exact Or.inl (String.ext (by simpa [Join] using h))
  · refine Or.inr ⟨String.mk pre, String.ext ?_⟩
    simp only [Join, List.map_cons, List.map_nil, String.data_append]
    rw [← h]
    simp

end path

/-- The configuration handed over in a run that reaches the initializer is the
one built from the flags. -/
theorem initializerArgs_Run (env : Env) (f : Flags) (m : URLsMap) (us : URLs)
    (hc : env.NewURLsMap f.restoreCluster = .ok m)
    (hp : env.NewURLs f.restorePeerURLs = .ok us) :
    initializerArgs (Run env f).trace = some (builtOptions f m us, builtConfig env f) := by
  rw [Run_parsed env f m us hc hp]
  cases env.Initialize (builtOptions f m us) (builtConfig env f) <;>
    simp [Fatalf, initializerArgs]

theorem initializerArgs_Run_inv (env : Env) (f : Flags) (options : RestoreOptions)
    (cfg : Option Config) (h : initializerArgs (Run env f).trace = some (options, cfg)) :
    ∃ m us, env.NewURLsMap f.restoreCluster = .ok m ∧
      env.NewURLs f.restorePeerURLs = .ok us ∧
      options = builtOptions f m us ∧ cfg = builtConfig env f := by
  rcases Run_cases env f with ⟨e, _, hr⟩ | ⟨m, e, _, _, hr⟩ | ⟨m, us, hc, hp, _⟩
  · simp [hr, Fatalf, initializerArgs] at h
  · simp [hr, Fatalf, initializerArgs] at h
  · rw [initializerArgs_Run env f m us hc hp] at h
    simp only [Option.some.injEq, Prod.mk.injEq] at h
    exact ⟨m, us, hc, hp, h.1.symm, h.2.symm⟩

/-! ## Claims about the command -/

/-- C1: when both URL parses succeed, the snapshot-store configuration handed to
`NewInitializer` is absent if and only if the storage-provider flag is the
empty string, and for every non-empty provider a configuration is present. -/
theorem snapstoreConfig_absent_iff_provider_empty (env : Env) (f : Flags) (stopCh : StopCh)
    (m : URLsMap) (us : URLs)
    (hc : env.NewURLsMap f.restoreCluster = .ok m)
    (hp : env.NewURLs f.restorePeerURLs = .ok us) :
    ∃ options cfg,
      initializerArgs ((NewInitializeCommand stopCh).Run env f).trace = some (options, cfg) ∧
      newInitializerCalls ((NewInitializeCommand stopCh).Run env f).trace = 1 ∧
      (cfg = none ↔ f.storageProvider = "") ∧
      (f.storageProvider ≠ "" → ∃ c, cfg = some c) := by
  refine ⟨builtOptions f m us, builtConfig env f, ?_, ?_, ?_, ?_⟩
  · simp only [NewInitializeCommand, Run_parsed env f m us hc hp]
    cases env.Initialize (builtOptions f m us) (builtConfig env f) <;>
      simp [Fatalf, initializerArgs]
  · simp only [NewInitializeCommand, Run_parsed env f m us hc hp]
    cases env.Initialize (builtOptions f m us) (builtConfig env f) <;>
      simp [Fatalf, newInitializerCalls]
  · by_cases h : f.storageProvider = "" <;> simp [builtConfig, h]
  · intro h
    simp [builtConfig, h]

theorem snapstoreConfig_absent_iff_provider_empty_witness :
    sampleEnv.NewURLsMap sampleFlags.restoreCluster = .ok sampleOptions.ClusterURLs ∧
    sampleEnv.NewURLs sampleFlags.restorePeerURLs = .ok sampleOptions.PeerURLs ∧
    ∃ options cfg,
      initializerArgs ((NewInitializeCommand none).Run sampleEnv sampleFlags).trace
        = some (options, cfg) ∧
      newInitializerCalls ((NewInitializeCommand none).Run sampleEnv sampleFlags).trace = 1 ∧
      (cfg = none ↔ sampleFlags.storageProvider = "") ∧
      (sampleFlags.storageProvider ≠ "" → ∃ c, cfg = some c) :=
  ⟨rfl, rfl,
    snapstoreConfig_absent_iff_provider_empty sampleEnv sampleFlags none
      sampleOptions.ClusterURLs sampleOptions.PeerURLs rfl rfl⟩

/-- C2: a run ends in a fatal log call, with exit code 1, if and only if parsing
the cluster-URL flag fails, or parsing the peer-URL flag fails, or `Initialize`
returns a non-nil error; otherwise the run returns normally without any fatal
call; and every fatal message includes the text of the underlying error. -/
theorem fatal_iff_parse_or_initialize_error (env : Env) (f : Flags) (stopCh : StopCh) :
    (((NewInitializeCommand stopCh).Run env f).outcome = Outcome.exited 1 ↔
      ((∃ e, env.NewURLsMap f.restoreCluster = .error e) ∨
        (∃ e, env.NewURLs f.restorePeerURLs = .error e) ∨
        (∃ e, Event.initializeCall (some e) ∈ ((NewInitializeCommand stopCh).Run env f).trace))) ∧
    ((∃ msg, ((NewInitializeCommand stopCh).Run env f).trace.getLast? = some (Event.fatal msg)) ↔
      ((NewInitializeCommand stopCh).Run env f).outcome = Outcome.exited 1) ∧
    (((NewInitializeCommand stopCh).Run env f).outcome ≠ Outcome.exited 1 →
      ((NewInitializeCommand stopCh).Run env f).outcome = Outcome.returned ∧
      fatalMessages ((NewInitializeCommand stopCh).Run env f).trace = []) ∧
    (∀ e, env.NewURLsMap f.restoreCluster = .error e →
      ∃ msg, fatalMessages ((NewInitializeCommand stopCh).Run env f).trace = [msg] ∧
        Includes msg e) ∧
    (∀ m e, env.NewURLsMap f.restoreCluster = .ok m →
      env.NewURLs f.restorePeerURLs = .error e →
      ∃ msg, fatalMessages ((NewInitializeCommand stopCh).Run env f).trace = [msg] ∧
        Includes msg e) ∧
    (∀ e, Event.initializeCall (some e) ∈ ((NewInitializeCommand stopCh).Run env f).trace →
      ∃ msg, fatalMessages ((NewInitializeCommand stopCh).Run env f).trace = [msg] ∧
        Includes msg e) := by
  have hinc : ∀ a e : String, Includes (a ++ e) e := fun a e =>
    ⟨a.data, [], by simp [String.data_append]⟩
  simp only [NewInitializeCommand]
  rcases Run_cases env f with ⟨e, hc, hr⟩ | ⟨m, e, hc, hp, hr⟩ | ⟨m, us, hc, hp, hi⟩
  · rw [hr]
    refine ⟨?_, ?_, ?_, ?_, ?_, ?_⟩
    · simp [Fatalf, hc]
    · simp [Fatalf]
    · simp [Fatalf]
    · intro e' he'
      rw [hc] at he'
      cases he'
      exact ⟨"failed creating url map for restore cluster: " ++ _, by simp [Fatalf, fatalMessages], hinc _ _⟩
    · intro m e' hm
      rw [hc] at hm
      cases hm
    · intro e' he'
      simp [Fatalf] at he'
  · rw [hr]
    refine ⟨?_, ?_, ?_, ?_, ?_, ?_⟩
    · simp [Fatalf, hc, hp]
    · simp [Fatalf]
    · simp [Fatalf]
    · intro e' he'
      rw [hc] at he'
      cases he'
    · intro m' e' _ he'
      rw [hp] at he'
      cases he'
      exact ⟨"failed parsing peers urls for restore cluster: " ++ _, by simp [Fatalf, fatalMessages], hinc _ _⟩
    · intro e' he'
      simp [Fatalf] at he'
  · rcases hi with ⟨err, _, hr⟩ | ⟨_, hr⟩
    · rw [hr]
      refine ⟨?_, ?_, ?_, ?_, ?_, ?_⟩
      · simp [Fatalf, hc, hp]
      · simp [Fatalf]
      · simp [Fatalf]
      · intro e' he'
        rw [hc] at he'
        cases he'
      · intro m' e' _ he'
        rw [hp] at he'
        cases he'
      · intro e' he'
        simp [Fatalf] at he'
        subst he'
        exact ⟨"initializer failed. " ++ _, by simp [Fatalf, fatalMessages], hinc _ _⟩
    · rw [hr]
      refine ⟨?_, ?_, ?_, ?_, ?_, ?_⟩
      · simp [hc, hp]
      · simp
      · simp [fatalMessages]
      · intro e' he'
        rw [hc] at he'
        cases he'
      · intro m' e' _ he'
        rw [hp] at he'
        cases he'
      · intro e' he'
        simp at he'

/-- C3: the `RestoreOptions` handed to `NewInitializer` carry the flags
unchanged, the two URL fields are exactly the results of parsing the cluster
and peer-URL flags, and `SkipHashCheck` is true only when the flag is set. -/
theorem options_carry_flags (env : Env) (f : Flags) (stopCh : StopCh)
    (options : RestoreOptions) (cfg : Option Config)
    (h : initializerArgs ((NewInitializeCommand stopCh).Run env f).trace = some (options, cfg)) :
    options.RestoreDataDir = f.restoreDataDir ∧
    options.Name = f.restoreName ∧
    options.ClusterToken = f.restoreClusterToken ∧
    options.SkipHashCheck = f.skipHashCheck ∧
    options.MaxFetchers = f.restoreMaxFetchers ∧
    env.NewURLsMap f.restoreCluster = .ok options.ClusterURLs ∧
    env.NewURLs f.restorePeerURLs = .ok options.PeerURLs ∧
    (options.SkipHashCheck = true → f.skipHashCheck = true) := by
  simp only [NewInitializeCommand] at h
  rcases Run_cases env f with ⟨e, _, hr⟩ | ⟨m, e, _, _, hr⟩ | ⟨m, us, hc, hp, hi⟩
  · simp [hr, Fatalf, initializerArgs] at h
  · simp [hr, Fatalf, initializerArgs] at h
  · have ho : options = builtOptions f m us := by
      rcases hi with ⟨err, _, hr⟩ | ⟨_, hr⟩ <;>
        · simp only [hr, Fatalf, List.cons_append, initializerArgs, Option.some.injEq,
            Prod.mk.injEq] at h
          exact h.1.symm
    subst ho
    exact ⟨rfl, rfl, rfl, rfl, rfl, hc, hp, fun h => h⟩

theorem options_carry_flags_witness :
    initializerArgs ((NewInitializeCommand none).Run sampleEnv sampleFlags).trace
      = some (sampleOptions, some sampleConfig) ∧
    sampleOptions.RestoreDataDir = sampleFlags.restoreDataDir ∧
    sampleOptions.Name = sampleFlags.restoreName ∧
    sampleOptions.ClusterToken = sampleFlags.restoreClusterToken ∧
    sampleOptions.SkipHashCheck = sampleFlags.skipHashCheck ∧
    sampleOptions.MaxFetchers = sampleFlags.restoreMaxFetchers ∧
    sampleEnv.NewURLsMap sampleFlags.restoreCluster = .ok sampleOptions.ClusterURLs ∧
    sampleEnv.NewURLs sampleFlags.restorePeerURLs = .ok sampleOptions.PeerURLs ∧
    (sampleOptions.SkipHashCheck = true → sampleFlags.skipHashCheck = true) :=
  ⟨by decide,
    options_carry_flags sampleEnv sampleFlags none sampleOptions (some sampleConfig)
      (by decide)⟩

/-- C4, as stated, fails: with the max-fetchers flag set to 0 the run reaches
the initializer with `MaxFetchers = 0`. -/
theorem maxFetchers_zero_reaches_initializer :
    ∃ options cfg,
      initializerArgs
        ((NewInitializeCommand none).Run sampleEnv
          { sampleFlags with restoreMaxFetchers := 0 }).trace = some (options, cfg) ∧
      options.MaxFetchers = 0 ∧ ¬ (1 ≤ options.MaxFetchers) :=
  ⟨{ sampleOptions with MaxFetchers := 0 }, some sampleConfig, by decide, rfl, by decide⟩

/-- C4, amended: the `MaxFetchers` handed to the initializer is the max-fetchers
flag value, unchecked; it is at least 1 exactly when the flag value is. -/
theorem maxFetchers_is_flag (env : Env) (f : Flags) (stopCh : StopCh)
    (options : RestoreOptions) (cfg : Option Config)
    (h : initializerArgs ((NewInitializeCommand stopCh).Run env f).trace = some (options, cfg)) :
    options.MaxFetchers = f.restoreMaxFetchers ∧
    (1 ≤ options.MaxFetchers ↔ 1 ≤ f.restoreMaxFetchers) := by
  simp only [NewInitializeCommand] at h
  rcases Run_cases env f with ⟨e, _, hr⟩ | ⟨m, e, _, _, hr⟩ | ⟨m, us, hc, hp, hi⟩
  · simp [hr, Fatalf, initializerArgs] at h
  · simp [hr, Fatalf, initializerArgs] at h
  · have ho : options = builtOptions f m us := by
      rcases hi with ⟨err, _, hr⟩ | ⟨_, hr⟩ <;>
        · simp only [hr, Fatalf, List.cons_append, initializerArgs, Option.some.injEq,
            Prod.mk.injEq] at h
          exact h.1.symm
    subst ho
    exact ⟨rfl, Iff.rfl⟩

theorem maxFetchers_is_flag_witness :
    initializerArgs
      ((NewInitializeCommand none).Run sampleEnv
        { sampleFlags with restoreMaxFetchers := -3 }).trace
      = some ({ sampleOptions with MaxFetchers := -3 }, some sampleConfig) ∧
    (-3 : Int) = -3 ∧ ((1 : Int) ≤ -3 ↔ (1 : Int) ≤ -3) :=
  ⟨by decide,
    maxFetchers_is_flag sampleEnv { sampleFlags with restoreMaxFetchers := -3 } none
      { sampleOptions with MaxFetchers := -3 } (some sampleConfig) (by decide)⟩

/-- C5, as stated, fails: with a cluster flag naming two members the run
reaches the initializer with a cluster-URL mapping of two entries. -/
theorem two_members_reach_initializer :
    ∃ options cfg,
      initializerArgs ((NewInitializeCommand none).Run sampleEnv twoMemberFlags).trace
        = some (options, cfg) ∧
      options.ClusterURLs.length = 2 ∧
      ¬ SingleMember options.Name options.ClusterURLs := by
  refine ⟨{ sampleOptions with
      Name := "etcd-0"
      ClusterURLs := [("etcd-0", [{ Scheme := "http", Host := "10.0.0.1:2380" }]),
        ("etcd-1", [{ Scheme := "http", Host := "10.0.0.2:2380" }])] },
    some sampleConfig, by decide, rfl, ?_⟩
  rintro ⟨us, hus⟩
  simp at hus

/-- C5, amended: the cluster-URL mapping handed to the initializer is the
parsed cluster flag and the member name is the name flag, both unchecked; the
mapping has exactly one entry, named as the member, if and only if the parsed
cluster flag has exactly one entry whose name is the name flag. -/
theorem cluster_is_parsed_flag (env : Env) (f : Flags) (stopCh : StopCh)
    (options : RestoreOptions) (cfg : Option Config)
    (h : initializerArgs ((NewInitializeCommand stopCh).Run env f).trace = some (options, cfg)) :
    ∃ m, env.NewURLsMap f.restoreCluster = .ok m ∧
      options.ClusterURLs = m ∧ options.Name = f.restoreName ∧
      (SingleMember options.Name options.ClusterURLs ↔ SingleMember f.restoreName m) := by
  simp only [NewInitializeCommand] at h
  rcases Run_cases env f with ⟨e, _, hr⟩ | ⟨m, e, _, _, hr⟩ | ⟨m, us, hc, hp, hi⟩
  · simp [hr, Fatalf, initializerArgs] at h
  · simp [hr, Fatalf, initializerArgs] at h
  · have ho : options = builtOptions f m us := by
      rcases hi with ⟨err, _, hr⟩ | ⟨_, hr⟩ <;>
        · simp only [hr, Fatalf, List.cons_append, initializerArgs, Option.some.injEq,
            Prod.mk.injEq] at h
          exact h.1.symm
    subst ho
    exact ⟨m, hc, rfl, rfl, Iff.rfl⟩

theorem cluster_is_parsed_flag_witness :
    initializerArgs ((NewInitializeCommand none).Run sampleEnv sampleFlags).trace
      = some (sampleOptions, some sampleConfig) ∧
    ∃ m, sampleEnv.NewURLsMap sampleFlags.restoreCluster = .ok m ∧
      sampleOptions.ClusterURLs = m ∧ sampleOptions.Name = sampleFlags.restoreName ∧
      (SingleMember sampleOptions.Name sampleOptions.ClusterURLs ↔
        SingleMember sampleFlags.restoreName m) :=
  ⟨by decide,
    cluster_is_parsed_flag sampleEnv sampleFlags none sampleOptions (some sampleConfig)
      (by decide)⟩

/-- C6, as stated, fails: no run of the command depends on its stop channel, so
a run whose stop channel is signalled never differs from the run with the
same flags whose stop channel is never signalled. -/
theorem stopCh_never_changes_run :
    ¬ ∃ (env : Env) (f : Flags) (t : Nat),
      (NewInitializeCommand (some t)).Run env f ≠ (NewInitializeCommand none).Run env f := by
  rintro ⟨env, f, t, h⟩
  exact h rfl

/-- C6, amended: the stop channel is not handed on. The initializer receives
the options and the snapshot-store configuration built from the flags and
nothing else, and the whole command is the same for every stop channel. -/
theorem stopCh_not_handed_on (stopCh stopCh' : StopCh) :
    NewInitializeCommand stopCh = NewInitializeCommand stopCh' ∧
    ∀ (env : Env) (f : Flags) (options : RestoreOptions) (cfg : Option Config),
      Event.newInitializer options cfg ∈ ((NewInitializeCommand stopCh).Run env f).trace →
        ∃ m us, options = builtOptions f m us ∧ cfg = builtConfig env f ∧
          ((NewInitializeCommand stopCh').Run env f).trace
            = [Event.newInitializer options cfg, Event.initializeCall (env.Initialize options cfg)]
              ++ (fatalMessages ((NewInitializeCommand stopCh').Run env f).trace).map
                  Event.fatal := by
  refine ⟨rfl, ?_⟩
  intro env f options cfg h
  simp only [NewInitializeCommand] at h ⊢
  rcases Run_cases env f with ⟨e, _, hr⟩ | ⟨m, e, _, _, hr⟩ | ⟨m, us, hc, hp, hi⟩
  · simp [hr, Fatalf] at h
  · simp [hr, Fatalf] at h
  · rcases hi with ⟨err, hi, hr⟩ | ⟨hi, hr⟩
    · rw [hr] at h ⊢
      simp [Fatalf] at h
      obtain ⟨rfl, rfl⟩ := h
      exact ⟨m, us, rfl, rfl, by simp [Fatalf, fatalMessages, hi]⟩
    · rw [hr] at h ⊢
      simp at h
      obtain ⟨rfl, rfl⟩ := h
      exact ⟨m, us, rfl, rfl, by simp [fatalMessages, hi]⟩

/-- C7: in every run `Initialize` is invoked at most once, exactly once when
both URL parses succeed, and an `Initialize` call that returned an error is
never followed by another `Initialize` call. -/
theorem initialize_at_most_once (env : Env) (f : Flags) (stopCh : StopCh) :
    initializeCalls ((NewInitializeCommand stopCh).Run env f).trace ≤ 1 ∧
    (initializeCalls ((NewInitializeCommand stopCh).Run env f).trace = 1 ↔
      (∃ m, env.NewURLsMap f.restoreCluster = .ok m) ∧
      (∃ us, env.NewURLs f.restorePeerURLs = .ok us)) ∧
    (∀ before after e,
      ((NewInitializeCommand stopCh).Run env f).trace
        = before ++ Event.initializeCall (some e) :: after →
      initializeCalls after = 0) := by
  simp only [NewInitializeCommand]
  rcases Run_cases env f with ⟨e, hc, hr⟩ | ⟨m, e, hc, hp, hr⟩ | ⟨m, us, hc, hp, hi⟩
  · rw [hr]
    refine ⟨by simp [Fatalf, initializeCalls], by simp [Fatalf, initializeCalls, hc], ?_⟩
    intro before after e' h
    have : Event.initializeCall (some e') ∈ (Fatalf [] ("failed creating url map for restore cluster: " ++ e)).trace := by
      rw [h]; simp
    simp [Fatalf] at this
  · rw [hr]
    refine ⟨by simp [Fatalf, initializeCalls], by simp [Fatalf, initializeCalls, hp], ?_⟩
    intro before after e' h
    have : Event.initializeCall (some e') ∈ (Fatalf [] ("failed parsing peers urls for restore cluster: " ++ e)).trace := by
      rw [h]; simp
    simp [Fatalf] at this
  · rcases hi with ⟨err, _, hr⟩ | ⟨_, hr⟩
    · rw [hr]
      refine ⟨by simp [Fatalf, initializeCalls], by simp [Fatalf, initializeCalls, hc, hp], ?_⟩
      intro before after e' h
      simp only [Fatalf, List.cons_append, List.nil_append] at h
      match before, h with
      | [], h => simp at h
      | [_], h =>
        simp only [List.cons_append, List.nil_append, List.cons.injEq] at h
        rw [← h.2.2]
        simp [initializeCalls]
      | [_, _], h => simp at h
      | _ :: _ :: _ :: l, h =>
        simp only [List.cons_append, List.cons.injEq] at h
        have := h.2.2.2
        simp at this
    · rw [hr]
      refine ⟨by simp [initializeCalls], by simp [initializeCalls, hc, hp], ?_⟩
      intro before after e' h
      have : Event.initializeCall (some e') ∈
          [Event.newInitializer (builtOptions f m us) (builtConfig env f),
            Event.initializeCall none] := by
        simp only at h
        rw [h]; simp
      simp at this

/-- C9: when parsing the cluster-URL flag or the peer-URL flag fails, no
initializer is constructed and `Initialize` is never invoked: the only step of
the run is the fatal call. The cluster-URL flag is checked first, so whenever
it is malformed the reported failure is the cluster-URL one. -/
theorem parse_failure_rejected_first (env : Env) (f : Flags) (stopCh : StopCh)
    (hfail : (∃ e, env.NewURLsMap f.restoreCluster = .error e) ∨
      (∃ e, env.NewURLs f.restorePeerURLs = .error e)) :
    newInitializerCalls ((NewInitializeCommand stopCh).Run env f).trace = 0 ∧
    initializeCalls ((NewInitializeCommand stopCh).Run env f).trace = 0 ∧
    initializerArgs ((NewInitializeCommand stopCh).Run env f).trace = none ∧
    (∃ msg, ((NewInitializeCommand stopCh).Run env f).trace = [Event.fatal msg]) ∧
    ((NewInitializeCommand stopCh).Run env f).outcome = Outcome.exited 1 ∧
    (∀ e, env.NewURLsMap f.restoreCluster = .error e →
      ((NewInitializeCommand stopCh).Run env f).trace
        = [Event.fatal ("failed creating url map for restore cluster: " ++ e)]) ∧
    (∀ m e, env.NewURLsMap f.restoreCluster = .ok m →
      env.NewURLs f.restorePeerURLs = .error e →
      ((NewInitializeCommand stopCh).Run env f).trace
        = [Event.fatal ("failed parsing peers urls for restore cluster: " ++ e)]) := by
  simp only [NewInitializeCommand]
  rcases Run_cases env f with ⟨e, hc, hr⟩ | ⟨m, e, hc, hp, hr⟩ | ⟨m, us, hc, hp, _⟩
  · rw [hr]
    refine ⟨by simp [Fatalf, newInitializerCalls], by simp [Fatalf, initializeCalls],
      by simp [Fatalf, initializerArgs], ⟨_, rfl⟩, by simp [Fatalf], ?_, ?_⟩
    · intro e' he'
      rw [hc] at he'
      cases he'
      simp [Fatalf]
    · intro m' e' hm
      rw [hc] at hm
      cases hm
  · rw [hr]
    refine ⟨by simp [Fatalf, newInitializerCalls], by simp [Fatalf, initializeCalls],
      by simp [Fatalf, initializerArgs], ⟨_, rfl⟩, by simp [Fatalf], ?_, ?_⟩
    · intro e' he'
      rw [hc] at he'
      cases he'
    · intro m' e' _ he'
      rw [hp] at he'
      cases he'
      simp [Fatalf]
  · rcases hfail with ⟨e, he⟩ | ⟨e, he⟩
    · rw [hc] at he
      cases he
    · rw [hp] at he
      cases he

theorem parse_failure_rejected_first_witness :
    ((∃ e, sampleEnv.NewURLsMap malformedFlags.restoreCluster = .error e) ∨
      (∃ e, sampleEnv.NewURLs malformedFlags.restorePeerURLs = .error e)) ∧
    (∃ e, sampleEnv.NewURLs malformedFlags.restorePeerURLs = .error e) ∧
    ((NewInitializeCommand none).Run sampleEnv malformedFlags).trace
      = [Event.fatal
          "failed creating url map for restore cluster: URL scheme must be http, https, unix, or unixs: "] ∧
    newInitializerCalls ((NewInitializeCommand none).Run sampleEnv malformedFlags).trace = 0 ∧
    initializeCalls ((NewInitializeCommand none).Run sampleEnv malformedFlags).trace = 0 :=
  ⟨Or.inl ⟨_, rfl⟩, ⟨_, rfl⟩, by decide,
    (parse_failure_rejected_first sampleEnv malformedFlags none (Or.inl ⟨_, rfl⟩)).1,
    (parse_failure_rejected_first sampleEnv malformedFlags none (Or.inl ⟨_, rfl⟩)).2.1⟩

/-- C8, as stated, fails in its clause for an empty storage prefix. With an
empty backup format version the `Prefix` handed over is the empty string,
while the cleaned format version is `.`; and with the format version `/v1`
the `Prefix` handed over is `/v1`, which has a leading slash. -/
theorem empty_prefix_not_cleaned_version :
    (∃ options c,
      initializerArgs
        ((NewInitializeCommand none).Run emptyVersionEnv
          { sampleFlags with storagePrefix := "" }).trace = some (options, some c) ∧
      c.Prefix = "" ∧
      path.Clean emptyVersionEnv.backupFormatVersion = "." ∧
      path.LexicallyCleaned emptyVersionEnv.backupFormatVersion = "." ∧
      c.Prefix ≠ path.Clean emptyVersionEnv.backupFormatVersion) ∧
    (∃ options c,
      initializerArgs
        ((NewInitializeCommand none).Run rootedVersionEnv
          { sampleFlags with storagePrefix := "" }).trace = some (options, some c) ∧
      c.Prefix = "/v1" ∧
      c.Prefix.data.head? = some '/') :=
  ⟨⟨sampleOptions, { sampleConfig with Prefix := "" }, by decide, rfl, by decide, by decide,
      by decide⟩,
    ⟨sampleOptions, { sampleConfig with Prefix := "/v1" }, by decide, rfl, by decide⟩⟩

/-- C8, amended: for a non-empty storage provider the snapshot-store
configuration handed to the initializer has `Provider`, `Container`,
`MaxParallelChunkUploads` and `TempDir` equal to the flag values and `Prefix`
equal to `path.Join` of the storage prefix flag and the backup format version.
For a non-empty storage prefix that is the two joined by a single slash and
lexically cleaned. For an empty storage prefix and a non-empty format version
it is exactly the lexically cleaned format version, which has no leading slash
when the format version has none. For an empty storage prefix and an empty
format version it is the empty string. -/
theorem snapstoreConfig_carries_flags (env : Env) (f : Flags) (stopCh : StopCh)
    (m : URLsMap) (us : URLs)
    (hc : env.NewURLsMap f.restoreCluster = .ok m)
    (hp : env.NewURLs f.restorePeerURLs = .ok us)
    (hprov : f.storageProvider ≠ "") :
    ∃ options c,
      initializerArgs ((NewInitializeCommand stopCh).Run env f).trace
        = some (options, some c) ∧
      c.Provider = f.storageProvider ∧
      c.Container = f.storageContainer ∧
      c.MaxParallelChunkUploads = f.maxParallelChunkUploads ∧
      c.TempDir = f.snapstoreTempDir ∧
      c.Prefix = path.Join [f.storagePrefix, env.backupFormatVersion] ∧
      (f.storagePrefix ≠ "" →
        c.Prefix = path.Clean (f.storagePrefix ++ "/" ++ env.backupFormatVersion) ∧
        c.Prefix
          = path.LexicallyCleaned (f.storagePrefix ++ "/" ++ env.backupFormatVersion)) ∧
      (f.storagePrefix = "" → env.backupFormatVersion ≠ "" →
        c.Prefix = path.Clean env.backupFormatVersion ∧
        c.Prefix = path.LexicallyCleaned env.backupFormatVersion ∧
        (env.backupFormatVersion.data.head? ≠ some '/' →
          c.Prefix.data.head? ≠ some '/')) ∧
      (f.storagePrefix = "" → env.backupFormatVersion = "" → c.Prefix = "") := by
  refine ⟨builtOptions f m us,
    { Provider := f.storageProvider
      Container := f.storageContainer
      Prefix := path.Join [f.storagePrefix, env.backupFormatVersion]
      MaxParallelChunkUploads := f.maxParallelChunkUploads
      TempDir := f.snapstoreTempDir }, ?_, rfl, rfl, rfl, rfl, rfl, ?_, ?_, ?_⟩
  · simp only [NewInitializeCommand]
    rw [initializerArgs_Run env f m us hc hp]
    simp [builtConfig, hprov]
  · intro hne
    refine ⟨path.Join_of_ne _ _ hne, ?_⟩
    simp only
    rw [path.Join_of_ne _ _ hne, path.Clean_eq_LexicallyCleaned]
  · intro he hv
    simp only [he]
    refine ⟨path.Join_empty _ hv, ?_, fun hhead => ?_⟩
    · rw [path.Join_empty _ hv, path.Clean_eq_LexicallyCleaned]
    · rw [path.Join_empty _ hv]
      exact path.cleanBytes_head _ hhead
  · intro he hv
    simp only [he, hv]
    exact path.Join_empty_empty

theorem snapstoreConfig_carries_flags_witness :
    sampleEnv.NewURLsMap sampleFlags.restoreCluster = .ok sampleOptions.ClusterURLs ∧
    sampleEnv.NewURLs sampleFlags.restorePeerURLs = .ok sampleOptions.PeerURLs ∧
    sampleFlags.storageProvider ≠ "" ∧
    (∃ options c,
      initializerArgs
        ((NewInitializeCommand none).Run sampleEnv
          { sampleFlags with storagePrefix := "backups/old/../etcd-main//./" }).trace
        = some (options, some c) ∧
      c.Provider = "S3" ∧ c.Container = "backups" ∧
      c.MaxParallelChunkUploads = 5 ∧ c.TempDir = "/tmp" ∧
      c.Prefix = path.LexicallyCleaned ("backups/old/../etcd-main//./" ++ "/" ++ "v1") ∧
      c.Prefix = "backups/etcd-main/v1") ∧
    (∃ options c,
      initializerArgs
        ((NewInitializeCommand none).Run sampleEnv
          { sampleFlags with storagePrefix := "" }).trace
        = some (options, some c) ∧
      c.Prefix = path.LexicallyCleaned "v1" ∧
      c.Prefix = "v1" ∧
      c.Prefix.data.head? ≠ some '/') := by
  refine ⟨rfl, rfl, by decide, ?_, ?_⟩
  · obtain ⟨options, c, hargs, h1, h2, h3, h4, hjoin, hne, _, _⟩ :=
      snapstoreConfig_carries_flags sampleEnv
        { sampleFlags with storagePrefix := "backups/old/../etcd-main//./" } none
        sampleOptions.ClusterURLs sampleOptions.PeerURLs rfl rfl (by decide)
    exact ⟨options, c, hargs, h1, h2, h3, h4, (hne (by decide)).2, by rw [hjoin]; decide⟩
  · obtain ⟨options, c, hargs, _, _, _, _, hjoin, _, hempty, _⟩ :=
      snapstoreConfig_carries_flags sampleEnv { sampleFlags with storagePrefix := "" } none
        sampleOptions.ClusterURLs sampleOptions.PeerURLs rfl rfl (by decide)
    obtain ⟨_, hclean, hhead⟩ := hempty rfl (by decide)
    exact ⟨options, c, hargs, hclean, by rw [hjoin]; decide, hhead (by decide)⟩

/-- C10: for every storage prefix `p` and every backup format version `v` that is
a single non-empty path element (no slash, neither `.` nor `..`),
`path.Join(p, v)` has `v` as its last path element: it equals `v` or ends with a
slash followed by `v`; and so does the `Prefix` of every configuration the
command hands to the initializer. -/
theorem prefix_ends_with_format_version (p v : String)
    (hv : v ≠ "") (hs : '/' ∉ v.data) (hd : v ≠ ".") (hdd : v ≠ "..") :
    (path.Join [p, v] = v ∨ ∃ pre : String, path.Join [p, v] = pre ++ "/" ++ v) ∧
    ∀ (env : Env) (f : Flags) (stopCh : StopCh) (options : RestoreOptions) (c : Config),
      env.backupFormatVersion = v → f.storagePrefix = p →
      initializerArgs ((NewInitializeCommand stopCh).Run env f).trace
        = some (options, some c) →
      (c.Prefix = v ∨ ∃ pre : String, c.Prefix = pre ++ "/" ++ v) := by
  refine ⟨path.Join_endsWith p v hv hs hd hdd, ?_⟩
  intro env f stopCh options c hev hfp h
  simp only [NewInitializeCommand] at h
  obtain ⟨m, us, _, _, _, hcfg⟩ := initializerArgs_Run_inv env f options (some c) h
  have hpre : c.Prefix = path.Join [p, v] := by
    unfold builtConfig at hcfg
    split at hcfg
    · simp only [Option.some.injEq] at hcfg
      rw [hcfg, hev, hfp]
    · cases hcfg
  rw [hpre]
  exact path.Join_endsWith p v hv hs hd hdd

theorem prefix_ends_with_format_version_witness :
    ("v1" : String) ≠ "" ∧ '/' ∉ ("v1" : String).data ∧ ("v1" : String) ≠ "." ∧
    ("v1" : String) ≠ ".." ∧
    path.Join ["/backups/../etcd-main//./", "v1"] = "/etcd-main/v1" ∧
    (path.Join ["/backups/../etcd-main//./", "v1"] = "v1" ∨
      ∃ pre : String, path.Join ["/backups/../etcd-main//./", "v1"] = pre ++ "/" ++ "v1") :=
  ⟨by decide, by decide, by decide, by decide, by decide,
    (prefix_ends_with_format_version "/backups/../etcd-main//./" "v1"
      (by decide) (by decide) (by decide) (by decide)).1⟩

/-- The model of `path.Clean` passes the test table of the Go package. -/
theorem Clean_cleantests : ∀ t ∈ cleantests, path.Clean t.1 = t.2 := by decide

/-- A cleaned path is left unchanged by `path.Clean`, on the test table. -/
theorem Clean_idempotent_cleantests : ∀ t ∈ cleantests, path.Clean t.2 = t.2 := by decide

/-- The model of `path.Join` passes the test table of the Go package. -/
theorem Join_jointests : ∀ t ∈ jointests, path.Join t.1 = t.2 := by decide

/-- The lexically cleaned form, by the rules of the documentation, passes the
test table of the Go package. -/
theorem LexicallyCleaned_cleantests :
    ∀ t ∈ cleantests, path.LexicallyCleaned t.1 = t.2 := by decide

end EtcdBackupRestore
